import Mathlib

/-!
# Chat relay hub: membership, routing and validation

A shallow embedding of `hub.go` and of the validation and mention parsing of
`client.go`.

* Go strings are Lean strings; `len` is the UTF-8 byte length and `range`
  walks the code points. The texts that reach `validateMessage` come out of
  `json.Unmarshal`, which yields valid UTF-8.
* A `*Client` is a record with an address (`ptr`) and its immutable fields.
  The mutable part of a session, its outbound channel, lives in the hub state
  (`Hub.send`), indexed by the session.
* Go maps are association lists; a map used as a set is a list of its keys.
  The order of a list is one iteration order of the map.
* The race in `select` between the enqueue and the five second timer is
  decided by the occupancy of the recipient queue: a queue with room accepts
  the envelope, a queue that is full (and is not drained during the pass)
  takes the timeout branch. Sending on a closed channel panics, which is the
  result `none`.
* `json.Marshal` and the clock are inputs (`marshal`, `now`).
* The envelopes the loop hands to its own inbox (`h.broadcast <- m`) are
  returned as the list of emitted envelopes of the loop iteration; the
  occupancy of the inbox is not part of the state.
-/

namespace Bushitsu

/-! ## Library functions of package `strings` -/

/-- Go `len(s)`: the number of bytes of the UTF-8 encoding. -/
def len (s : String) : Nat := s.utf8ByteSize

/-- Go `strings.HasPrefix`. -/
def HasPrefix (s p : String) : Bool := p.data.isPrefixOf s.data

/-- Go `strings.TrimPrefix`. -/
def TrimPrefix (s p : String) : String :=
  if HasPrefix s p then String.mk (s.data.drop p.data.length) else s

/-- Worker of `SplitN` for a one character separator: at most `n` pieces. -/
def splitChars (sep : Char) : Nat → List Char → List (List Char)
  | 0, _ => []
  | 1, s => [s]
  | n + 2, s =>
    match s.span (fun x => x != sep) with
    | (a, []) => [a]
    | (a, _ :: rest) => a :: splitChars sep (n + 1) rest

/-- Go `strings.SplitN(s, sep, n)` for a separator of one character and
`n ≥ 0`. -/
def SplitN (s : String) (sep : Char) (n : Nat) : List String :=
  (splitChars sep n s.data).map String.mk

/-! ## Data model (`client.go`, `hub.go`) -/

/-- A serialized envelope (`[]byte`). -/
abbrev Bytes := String

structure ChatData where
  From : String
  FromId : String
  Text : String
  Mention : List String
  deriving DecidableEq, Repr

structure UserEventData where
  Event : String
  User : String
  deriving DecidableEq, Repr

structure SystemEventData where
  Event : String
  Details : List (String × String)
  deriving DecidableEq, Repr

/-- The dynamic type held by the field `Data interface{}`. -/
inductive Payload where
  | chat (d : ChatData)
  | userEvent (d : UserEventData)
  | systemEvent (d : SystemEventData)
  deriving DecidableEq, Repr

structure WebSocketMessage where
  Type_ : String
  Room : String
  Timestamp : String
  Data : Payload
  deriving DecidableEq, Repr

structure ClientMessage where
  Type_ : String
  Text : String
  deriving DecidableEq, Repr

/-- A session. `ptr` is the address of the Go object: two sessions are the
same session when they are the same record. -/
structure Client where
  ptr : Nat
  id : String
  room : String
  name : String
  deriving DecidableEq, Repr

/-- The state of a buffered channel of serialized envelopes. -/
structure Chan where
  buf : List Bytes
  cap : Nat
  closed : Bool
  deriving DecidableEq, Repr

/-- The channel `make(chan []byte, 1024)` of a fresh session. -/
def Chan.fresh : Chan := { buf := [], cap := 1024, closed := false }

/-- The channel after one more envelope has been enqueued. -/
def Chan.push (ch : Chan) (data : Bytes) : Chan := { ch with buf := ch.buf ++ [data] }

/-- The channel after `close(ch)`. -/
def Chan.close (ch : Chan) : Chan := { ch with closed := true }

structure RoomInfo where
  Name : String
  UserCount : Nat
  deriving DecidableEq, Repr

/-- The hub, with the state of the outbound channel of every session. -/
structure Hub where
  clients : List Client
  rooms : List (String × List Client)
  predefinedRooms : List String
  allowDynamicRooms : Bool
  send : Client → Chan

/-! ## Go maps as association lists -/

/-- Read `m[k]` with the presence flag. -/
def mapGet {β : Type} (k : String) : List (String × β) → Option β
  | [] => none
  | (k', v) :: m => if k' = k then some v else mapGet k m

/-- Assignment `m[k] = v`. -/
def mapSet {β : Type} (k : String) (v : β) : List (String × β) → List (String × β)
  | [] => [(k, v)]
  | (k', v') :: m => if k' = k then (k, v) :: m else (k', v') :: mapSet k v m

/-- Builtin `delete(m, k)`. -/
def mapDelete {β : Type} (k : String) (m : List (String × β)) : List (String × β) :=
  m.filter (fun p => decide (p.1 ≠ k))

/-- Insertion `s[x] = true` into a map used as a set. -/
def setInsert {α : Type} [DecidableEq α] (x : α) (s : List α) : List α :=
  if x ∈ s then s else s ++ [x]

/-- Builtin `delete(s, x)` on a map used as a set. -/
def setDelete {α : Type} [DecidableEq α] (x : α) (s : List α) : List α :=
  s.filter (fun y => decide (y ≠ x))

/-- The member set of a room, empty when the room has no entry. -/
def Hub.members (h : Hub) (room : String) : List Client :=
  (mapGet room h.rooms).getD []

/-! ## Specification of a delivery pass -/

/-- The channel of session `d` after a delivery pass over the snapshot `L`
started in state `h`: one more envelope when the queue had room; closed when
the queue was full and the session was admitted. -/
def sendAfter (data : Bytes) (h : Hub) (L : List Client) (d : Client) : Chan :=
  if d ∈ L then
    if (h.send d).buf.length < (h.send d).cap then (h.send d).push data
    else if d ∈ h.clients then (h.send d).close
    else h.send d
  else h.send d

/-- The sessions of the snapshot `L` whose attempt times out. -/
def timedOut (h : Hub) (L : List Client) (d : Client) : Bool :=
  decide (d ∈ L) && decide ((h.send d).cap ≤ (h.send d).buf.length)

/-- The state `h1` is the result of a delivery pass over the snapshot `L`
started in state `h`. -/
def PassResult (data : Bytes) (h : Hub) (L : List Client) (h1 : Hub) : Prop :=
  (∀ d, h1.send d = sendAfter data h L d) ∧
  h1.clients = h.clients.filter (fun d => !timedOut h L d) ∧
  (∀ r, h1.members r = (h.members r).filter
    (fun d => !(timedOut h L d && decide (d ∈ h.clients) && decide (d.room = r)))) ∧
  h1.predefinedRooms = h.predefinedRooms ∧
  h1.allowDynamicRooms = h.allowDynamicRooms

/-! ## Channels -/

/-- Outcome of the `select` of a delivery attempt. -/
inductive SendOutcome where
  | sent (ch : Chan)
  | timeout
  | panic
  deriving DecidableEq, Repr

/-- The attempt `select { case ch <- data: ...; case <-time.After(5s): ... }`. -/
def Chan.trySend (ch : Chan) (data : Bytes) : SendOutcome :=
  if ch.closed then .panic
  else if ch.buf.length < ch.cap then .sent (ch.push data)
  else .timeout

/-- The queue accepts one more envelope. -/
def Chan.hasRoom (ch : Chan) : Prop := ch.buf.length < ch.cap

/-- The queue is saturated. -/
def Chan.full (ch : Chan) : Prop := ch.cap ≤ ch.buf.length

instance (ch : Chan) : Decidable ch.hasRoom := by unfold Chan.hasRoom; infer_instance

instance (ch : Chan) : Decidable ch.full := by unfold Chan.full; infer_instance

/-- Method `Client.close`: closes the outbound channel, once. -/
def closeClient (h : Hub) (c : Client) : Hub :=
  { h with send := Function.update h.send c (h.send c).close }

/-! ## `hub.go` -/

def NewHub : Hub :=
  { clients := [], rooms := [], predefinedRooms := [], allowDynamicRooms := false,
    send := fun _ => Chan.fresh }

/-- Method `Hub.removeClient`. -/
def removeClient (h : Hub) (c : Client) : Hub :=
  if c ∈ h.clients then
    let h1 := closeClient { h with clients := setDelete c h.clients } c
    match mapGet c.room h1.rooms with
    | some room =>
      let room1 := setDelete c room
      if room1.length = 0 then { h1 with rooms := mapDelete c.room h1.rooms }
      else { h1 with rooms := mapSet c.room room1 h1.rooms }
    | none => h1
  else h

/-- The delivery loop shared by `sendToRoom` and `sendToUser`, over the
snapshot of the recipients. -/
def sendLoop (data : Bytes) : Hub → List Client → Option Hub
  | h, [] => some h
  | h, c :: cs =>
    match (h.send c).trySend data with
    | .sent ch => sendLoop data { h with send := Function.update h.send c ch } cs
    | .timeout => sendLoop data (removeClient h c) cs
    | .panic => none

/-- Method `Hub.sendToRoom`. -/
def sendToRoom (h : Hub) (room : String) (data : Bytes) : Option Hub :=
  match mapGet room h.rooms with
  | none => some h
  | some clients => sendLoop data h clients

/-- Method `Hub.sendToUser`. -/
def sendToUser (h : Hub) (name : String) (data : Bytes) : Option Hub :=
  sendLoop data h (h.clients.filter (fun c => decide (c.name = name)))

/-- The test of `Hub.route` for a directed message: the target name and the
sender name when the envelope is a chat whose text starts with `@`. -/
def routeMention (msg : WebSocketMessage) : Option (String × String) :=
  if msg.Type_ = "chat" then
    match msg.Data with
    | .chat chatData =>
      if HasPrefix chatData.Text "@" then
        match SplitN chatData.Text ' ' 2 with
        | part0 :: _ => some (TrimPrefix part0 "@", chatData.From)
        | [] => none
      else none
    | _ => none
  else none

/-- Method `Hub.route`. -/
def route (marshal : WebSocketMessage → Option Bytes) (h : Hub) (msg : WebSocketMessage) :
    Option Hub :=
  match marshal msg with
  | none => some h
  | some data =>
    match routeMention msg with
    | some (targetName, sender) =>
      match sendToUser h targetName data with
      | some h1 => sendToUser h1 sender data
      | none => none
    | none => sendToRoom h msg.Room data

/-- The envelope of a join or leave notice. -/
def userEventMsg (event : String) (c : Client) (now : String) : WebSocketMessage :=
  { Type_ := "user_event", Room := c.room, Timestamp := now,
    Data := .userEvent { Event := event, User := c.name } }

/-- The `register` case of `Hub.run`: the new state and the emitted envelopes. -/
def handleRegister (h : Hub) (c : Client) (now : String) : Hub × List WebSocketMessage :=
  let rooms1 := match mapGet c.room h.rooms with
    | some _ => h.rooms
    | none => mapSet c.room [] h.rooms
  let room := (mapGet c.room rooms1).getD []
  ({ h with clients := setInsert c h.clients,
            rooms := mapSet c.room (setInsert c room) rooms1 },
   [userEventMsg "join" c now])

/-- The `unregister` case of `Hub.run`: the new state and the emitted
envelopes. -/
def handleUnregister (h : Hub) (c : Client) (now : String) : Hub × List WebSocketMessage :=
  if c ∈ h.clients then
    let h1 := closeClient { h with clients := setDelete c h.clients } c
    match mapGet c.room h1.rooms with
    | some room =>
      let room1 := setDelete c room
      if room1.length = 0 then ({ h1 with rooms := mapDelete c.room h1.rooms }, [])
      else ({ h1 with rooms := mapSet c.room room1 h1.rooms }, [userEventMsg "leave" c now])
    | none => (h1, [])
  else (h, [])

/-- The events the loop of `Hub.run` selects on. -/
inductive Event where
  | register (c : Client)
  | unregister (c : Client)
  | broadcast (m : WebSocketMessage)

/-- One iteration of the loop of `Hub.run`: the new state and the envelopes
handed to the inbox during the iteration, or `none` on a panic. -/
def runStep (marshal : WebSocketMessage → Option Bytes) (now : String) (h : Hub) :
    Event → Option (Hub × List WebSocketMessage)
  | .register c => some (handleRegister h c now)
  | .unregister c => some (handleUnregister h c now)
  | .broadcast m => (route marshal h m).map (fun h1 => (h1, []))

/-- Method `Hub.CreateRoom`. -/
def CreateRoom (h : Hub) (name : String) : Except String Hub :=
  if name ∈ h.predefinedRooms then .error ("room already exists: " ++ name)
  else .ok { h with predefinedRooms := setInsert name h.predefinedRooms }

/-- Method `Hub.GetRooms`. -/
def GetRooms (h : Hub) : List RoomInfo :=
  let rooms := h.predefinedRooms.map (fun roomName =>
    match mapGet roomName h.rooms with
    | some activeRoom => { Name := roomName, UserCount := activeRoom.length }
    | none => { Name := roomName, UserCount := 0 })
  if h.allowDynamicRooms then
    rooms ++ (h.rooms.filter (fun p => decide (p.1 ∉ h.predefinedRooms))).map
      (fun p => { Name := p.1, UserCount := p.2.length })
  else rooms

/-- Method `Hub.IsRoomAllowed`. -/
def IsRoomAllowed (h : Hub) (name : String) : Bool :=
  if h.allowDynamicRooms then true
  else decide (name ∈ h.predefinedRooms)

/-- Method `Hub.SetAllowDynamicRooms`. -/
def SetAllowDynamicRooms (h : Hub) (allow : Bool) : Hub :=
  { h with allowDynamicRooms := allow }

/-- Method `Hub.shutdown`. -/
def shutdown (h : Hub) : Hub :=
  { (h.clients.foldl closeClient h) with clients := [], rooms := [] }

/-! ## `client.go` -/

def maxMessageLength : Nat := 4096

/-- The condition of the loop over the runes of the text. -/
def badRune (r : Char) : Bool :=
  decide (r.toNat < 32) && r != '\t' && r != '\n' && r != '\r'

/-- The loop `for _, r := range msg.Text` of `validateMessage`. -/
def checkRunes : List Char → Except String Unit
  | [] => .ok ()
  | r :: rs => if badRune r then .error "invalid characters in message" else checkRunes rs

/-- Function `validateMessage`. -/
def validateMessage (msg : ClientMessage) : Except String Unit :=
  if msg.Type_ ≠ "chat" then .error "invalid message type"
  else if len msg.Text = 0 then .error "empty message"
  else if len msg.Text > maxMessageLength then .error "message too long"
  else checkRunes msg.Text.data

/-- The mention parsing of `Client.readLoop`. -/
def parseMentions (text : String) : List String :=
  if HasPrefix text "@" then
    match SplitN text ' ' 2 with
    | part0 :: _ => [TrimPrefix part0 "@"]
    | [] => []
  else []

/-- The body of the loop of `Client.readLoop` for one decoded frame: the
envelope handed to the hub, if any. -/
def readLoopEnvelope (c : Client) (now : String) (clientMsg : ClientMessage) :
    Option WebSocketMessage :=
  match validateMessage clientMsg with
  | .error _ => none
  | .ok _ =>
    if clientMsg.Type_ = "chat" then
      some { Type_ := "chat", Room := c.room, Timestamp := now,
             Data := .chat { From := c.name, FromId := c.id, Text := clientMsg.Text,
                             Mention := parseMentions clientMsg.Text } }
    else none

/-! ## Executions of the hub -/

/-- The operations that change the hub: an iteration of the loop of `Hub.run`
on an event (admission, unregistration, routing pass) at a clock reading, a
forced eviction by `removeClient`, and the calls of `CreateRoom`,
`SetAllowDynamicRooms` and `shutdown`. -/
inductive Action where
  | event (now : String) (e : Event)
  | removeClient (c : Client)
  | createRoom (name : String)
  | setAllowDynamicRooms (allow : Bool)
  | shutdown

/-- The state after one operation; `none` when a routing pass panics. A failed
`CreateRoom` leaves the state as it is. -/
def applyAction (marshal : WebSocketMessage → Option Bytes) (h : Hub) : Action → Option Hub
  | .event now e => (runStep marshal now h e).map (fun r => r.1)
  | .removeClient c => some (removeClient h c)
  | .createRoom name =>
    match CreateRoom h name with
    | .ok h1 => some h1
    | .error _ => some h
  | .setAllowDynamicRooms allow => some (SetAllowDynamicRooms h allow)
  | .shutdown => some (shutdown h)

/-- The state after a sequence of operations. -/
def runActions (marshal : WebSocketMessage → Option Bytes) : Hub → List Action → Option Hub
  | h, [] => some h
  | h, a :: as =>
    match applyAction marshal h a with
    | some h1 => runActions marshal h1 as
    | none => none

/-! ## Specification functions -/

/-- The membership invariant: every session of the global set is in the member
set of its own room and of no other room, and every session of a member set is
in the global set. -/
def MembershipInvariant (h : Hub) : Prop :=
  (∀ c ∈ h.clients, c ∈ h.members c.room ∧ ∀ r, c ∈ h.members r → r = c.room) ∧
  (∀ r c, c ∈ h.members r → c ∈ h.clients)

/-- The state after a pass in which every recipient is open and has room:
only the queues of the recipients change. -/
def delivered (data : Bytes) (h : Hub) (L : List Client) : Hub :=
  { h with send := fun d => if d ∈ L then (h.send d).push data else h.send d }

/-- The characters after the leading `@` up to, and not including, the first
space; the whole remainder when the text has no space. -/
def mentionName (text : String) : String :=
  String.mk ((text.data.drop 1).takeWhile (fun x => x != ' '))

/-- The number of copies a directed message gives a session: one when its
display name is the target name, and one when it is the name of the sender. -/
def mentionCopies (target sender : String) (c : Client) : Nat :=
  (if c.name = target then 1 else 0) + (if c.name = sender then 1 else 0)

/-- A control character in the sense of the words of the specification: the
Unicode category Cc, that is U+0000 to U+001F and U+007F to U+009F (Go
`unicode.IsControl`). -/
def isControl (r : Char) : Bool :=
  decide (r.toNat < 32) || (decide (127 ≤ r.toNat) && decide (r.toNat < 160))

/-- The validation rule in the words of the specification: the type is "chat",
the length is between 1 and 4096, and no character is a control character
other than tab, newline and carriage return. -/
def specValid (msg : ClientMessage) : Prop :=
  msg.Type_ = "chat" ∧ 1 ≤ len msg.Text ∧ len msg.Text ≤ 4096 ∧
    ∀ r ∈ msg.Text.data, isControl r = true → r = '\t' ∨ r = '\n' ∨ r = '\r'

/-- The frame whose text is the single character DEL (U+007F). -/
def delFrame : ClientMessage := { Type_ := "chat", Text := String.mk [Char.ofNat 127] }

/-- Isolation of the evictions of a delivery pass over the snapshot `L` from
state `h` to state `h1`: a recipient whose queue is full is removed from the
global set and, when it was admitted, from the member set of its room; a
recipient whose queue has room receives its copy and stays where it was; and
every session that is not a recipient with a full queue stays where it was. -/
def PassIsolated (data : Bytes) (h : Hub) (L : List Client) (h1 : Hub) : Prop :=
  (∀ c ∈ L, (h.send c).full →
    c ∉ h1.clients ∧ (c ∈ h.clients → c ∉ h1.members c.room)) ∧
  (∀ d ∈ L, (h.send d).hasRoom →
    (h1.send d).buf = (h.send d).buf ++ [data] ∧
      (d ∈ h.clients → d ∈ h1.clients) ∧ ∀ r, d ∈ h.members r → d ∈ h1.members r) ∧
  (∀ s, ¬ (s ∈ L ∧ (h.send s).full) →
    (s ∈ h.clients → s ∈ h1.clients) ∧ ∀ r, s ∈ h.members r → s ∈ h1.members r)

/-- The whitespace characters named by the specification: space, tab, newline
and carriage return. -/
def isWhitespace (r : Char) : Bool :=
  r == ' ' || r == '\t' || r == '\n' || r == '\r'

/-- The mention target in the words of the specification: the first
whitespace-delimited token of the text with the leading `@` stripped. -/
def specMentionName (text : String) : String :=
  String.mk ((text.data.drop 1).takeWhile (fun x => !isWhitespace x))

/-! ## Sample sessions and states -/

def alice : Client := { ptr := 1, id := "session-01", room := "lobby", name := "alice" }

def bob : Client := { ptr := 2, id := "session-02", room := "lobby", name := "bob" }

def carol : Client := { ptr := 3, id := "session-03", room := "lobby", name := "carol" }

def dave : Client := { ptr := 4, id := "session-04", room := "den", name := "dave" }

/-- A serializer for the examples: it keeps the fields routing looks at. -/
def sampleMarshal (m : WebSocketMessage) : Option Bytes :=
  match m.Data with
  | .chat d => some (m.Type_ ++ "|" ++ m.Room ++ "|" ++ d.From ++ "|" ++ d.Text)
  | .userEvent d => some (m.Type_ ++ "|" ++ m.Room ++ "|" ++ d.Event ++ "|" ++ d.User)
  | .systemEvent d => some (m.Type_ ++ "|" ++ m.Room ++ "|" ++ d.Event)

/-- The chat envelope the inbound pump of `c` builds for `text`. -/
def chatFrom (c : Client) (text : String) (mention : List String) : WebSocketMessage :=
  { Type_ := "chat", Room := c.room, Timestamp := "2024-01-01T00:00:00Z",
    Data := .chat { From := c.name, FromId := c.id, Text := text, Mention := mention } }

/-- Room "lobby" is predefined and holds alice, bob and carol; dave is in the
room "den"; every queue is empty. -/
def lobbyHub : Hub :=
  { clients := [alice, bob, carol, dave],
    rooms := [("lobby", [alice, bob, carol]), ("den", [dave])],
    predefinedRooms := ["lobby"], allowDynamicRooms := true,
    send := fun _ => Chan.fresh }

/-- Room "lobby" is predefined and alice is its only member; dynamic rooms are
disabled. -/
def soloHub : Hub :=
  { clients := [alice], rooms := [("lobby", [alice])],
    predefinedRooms := ["lobby"], allowDynamicRooms := false,
    send := fun _ => Chan.fresh }

/-- The channel of a session that stopped reading: 1024 pending envelopes. -/
def stuckChan : Chan := { buf := List.replicate 1024 "old", cap := 1024, closed := false }

/-- The state `lobbyHub` in which the queue of bob is saturated. -/
def stuckHub : Hub :=
  { lobbyHub with send := fun c => if c = bob then stuckChan else Chan.fresh }

/-- A well-formed state: the membership invariant holds, the global set and the
member sets have no repeated session (they are Go maps), and the channel of
every admitted session is open. -/
def WellFormed (h : Hub) : Prop :=
  MembershipInvariant h ∧ h.clients.Nodup ∧ (∀ r, (h.members r).Nodup) ∧
    ∀ c ∈ h.clients, (h.send c).closed = false

/-- Every admission of the execution is of a session whose channel is open at
that moment, as for the fresh sessions `serveWS` builds. -/
def FreshAdmissions (marshal : WebSocketMessage → Option Bytes) : Hub → List Action → Prop
  | _, [] => True
  | h, a :: as =>
    (∀ now c, a = .event now (.register c) → (h.send c).closed = false) ∧
      ∀ h1, applyAction marshal h a = some h1 → FreshAdmissions marshal h1 as

/-- A session: the lobby is created, alice, bob and dave are admitted, alice
speaks, bob disconnects, the policy changes, dave is evicted by force and
carol is admitted. -/
def sampleActions : List Action :=
  [ .createRoom "lobby",
    .event "2024-01-01T00:00:00Z" (.register alice),
    .event "2024-01-01T00:00:01Z" (.register bob),
    .event "2024-01-01T00:00:02Z" (.register dave),
    .event "2024-01-01T00:00:03Z" (.broadcast (chatFrom alice "hello" [])),
    .event "2024-01-01T00:00:04Z" (.unregister bob),
    .setAllowDynamicRooms true,
    .removeClient dave,
    .event "2024-01-01T00:00:05Z" (.register carol) ]

/-! ## Maps and sets -/

theorem mapGet_mapSet_self {β : Type} (k : String) (v : β) (m : List (String × β)) :
    mapGet k (mapSet k v m) = some v := by
  induction m with
  | nil => simp [mapSet, mapGet]
  | cons p m ih =>
    obtain ⟨k1, v1⟩ := p
    by_cases hk : k1 = k
    · simp [mapSet, mapGet, hk]
    · simp [mapSet, mapGet, hk, ih]

theorem mapGet_mapSet_ne {β : Type} (k k2 : String) (v : β) (m : List (String × β))
    (hne : k2 ≠ k) : mapGet k2 (mapSet k v m) = mapGet k2 m := by
  induction m with
  | nil => simp [mapSet, mapGet, Ne.symm hne]
  | cons p m ih =>
    obtain ⟨k1, v1⟩ := p
    by_cases hk : k1 = k
    · subst hk
      simp [mapSet, mapGet, Ne.symm hne]
    · by_cases hk2 : k1 = k2
      · subst hk2
        simp [mapSet, mapGet, hk]
      · simp [mapSet, mapGet, hk, hk2, ih]

theorem mapGet_mapDelete_self {β : Type} (k : String) (m : List (String × β)) :
    mapGet k (mapDelete k m) = none := by
  induction m with
  | nil => simp [mapDelete, mapGet]
  | cons p m ih =>
    obtain ⟨k1, v1⟩ := p
    by_cases hk : k1 = k
    · simpa [mapDelete, hk] using ih
    · simpa [mapDelete, mapGet, hk] using ih

theorem mapGet_mapDelete_ne {β : Type} (k k2 : String) (m : List (String × β))
    (hne : k2 ≠ k) : mapGet k2 (mapDelete k m) = mapGet k2 m := by
  induction m with
  | nil => simp [mapDelete, mapGet]
  | cons p m ih =>
    obtain ⟨k1, v1⟩ := p
    by_cases hk : k1 = k
    · subst hk
      simpa [mapDelete, mapGet, Ne.symm hne] using ih
    · by_cases hk2 : k1 = k2
      · subst hk2
        simp [mapDelete, mapGet, hk]
      · simpa [mapDelete, mapGet, hk, hk2] using ih

theorem mem_setDelete {α : Type} [DecidableEq α] (x y : α) (s : List α) :
    y ∈ setDelete x s ↔ y ∈ s ∧ y ≠ x := by
  simp [setDelete]

theorem mem_setInsert {α : Type} [DecidableEq α] (x y : α) (s : List α) :
    y ∈ setInsert x s ↔ y = x ∨ y ∈ s := by
  unfold setInsert
  by_cases hx : x ∈ s
  · simp only [hx, if_true]
    constructor
    · exact fun h => Or.inr h
    · rintro (h | h)
      · exact h ▸ hx
      · exact h
  · simp [hx, or_comm]

theorem nodup_setInsert {α : Type} [DecidableEq α] (x : α) (s : List α) (hs : s.Nodup) :
    (setInsert x s).Nodup := by
  unfold setInsert
  by_cases hx : x ∈ s
  · simpa [hx] using hs
  · simp only [hx, if_false]
    rw [List.nodup_append]
    refine ⟨hs, List.nodup_singleton x, ?_⟩
    intro a ha hb
    simp only [List.mem_singleton] at hb
    exact hx (hb ▸ ha)

theorem nodup_setDelete {α : Type} [DecidableEq α] (x : α) (s : List α) (hs : s.Nodup) :
    (setDelete x s).Nodup := hs.filter _

theorem setDelete_of_not_mem {α : Type} [DecidableEq α] (x : α) (s : List α) (hx : x ∉ s) :
    setDelete x s = s := by
  unfold setDelete
  rw [List.filter_eq_self]
  intro a ha
  have : a ≠ x := fun e => hx (e ▸ ha)
  simpa using this

/-! ## Forced eviction -/

theorem removeClient_of_not_mem (h : Hub) (c : Client) (hc : c ∉ h.clients) :
    removeClient h c = h := by
  simp [removeClient, hc]

theorem removeClient_clients (h : Hub) (c : Client) :
    (removeClient h c).clients = setDelete c h.clients := by
  by_cases hc : c ∈ h.clients
  · unfold removeClient
    simp only [hc, if_true]
    split
    · split <;> rfl
    · rfl
  · rw [removeClient_of_not_mem h c hc, setDelete_of_not_mem c h.clients hc]

theorem removeClient_send (h : Hub) (c d : Client) :
    (removeClient h c).send d =
      if d = c ∧ c ∈ h.clients then (h.send c).close else h.send d := by
  by_cases hc : c ∈ h.clients
  · have hs : (removeClient h c).send =
        Function.update h.send c (h.send c).close := by
      unfold removeClient
      simp only [hc, if_true]
      split
      · split <;> rfl
      · rfl
    rw [hs]
    by_cases hd : d = c
    · subst hd
      simp [hc]
    · simp [hd, Function.update_noteq hd]
  · rw [removeClient_of_not_mem h c hc]
    simp [hc]

theorem removeClient_policy (h : Hub) (c : Client) :
    (removeClient h c).predefinedRooms = h.predefinedRooms ∧
      (removeClient h c).allowDynamicRooms = h.allowDynamicRooms := by
  by_cases hc : c ∈ h.clients
  · unfold removeClient
    simp only [hc, if_true]
    split
    · split <;> exact ⟨rfl, rfl⟩
    · exact ⟨rfl, rfl⟩
  · rw [removeClient_of_not_mem h c hc]
    exact ⟨rfl, rfl⟩

theorem removeClient_rooms (h : Hub) (c : Client) (hc : c ∈ h.clients) :
    (removeClient h c).rooms =
      match mapGet c.room h.rooms with
      | some room =>
        if (setDelete c room).length = 0 then mapDelete c.room h.rooms
        else mapSet c.room (setDelete c room) h.rooms
      | none => h.rooms := by
  unfold removeClient
  simp only [hc, if_true]
  have hr : (closeClient { h with clients := setDelete c h.clients } c).rooms = h.rooms := rfl
  rw [hr]
  cases hget : mapGet c.room h.rooms with
  | none => rfl
  | some room =>
    simp only
    split <;> rfl

theorem removeClient_members (h : Hub) (c : Client) (hc : c ∈ h.clients) (r : String) :
    (removeClient h c).members r =
      if r = c.room then setDelete c (h.members r) else h.members r := by
  unfold Hub.members
  rw [removeClient_rooms h c hc]
  cases hget : mapGet c.room h.rooms with
  | none =>
    by_cases hr : r = c.room
    · subst hr
      simp [hget, setDelete]
    · simp [hr]
  | some room =>
    simp only
    by_cases hlen : (setDelete c room).length = 0
    · simp only [hlen, if_true]
      by_cases hr : r = c.room
      · subst hr
        rw [mapGet_mapDelete_self, hget]
        simp only [if_true, Option.getD_none, Option.getD_some]
        exact (List.length_eq_zero.mp hlen).symm
      · rw [mapGet_mapDelete_ne _ _ _ hr]
        simp [hr]
    · simp only [hlen, if_false]
      by_cases hr : r = c.room
      · subst hr
        rw [mapGet_mapSet_self, hget]
        simp
      · rw [mapGet_mapSet_ne _ _ _ _ hr]
        simp [hr]

/-! ## The delivery loop -/

theorem sendLoop_spec (data : Bytes) :
    ∀ (L : List Client) (h : Hub), L.Nodup → (∀ c ∈ L, (h.send c).closed = false) →
      ∃ h1, sendLoop data h L = some h1 ∧ PassResult data h L h1 := by
  intro L
  induction L with
  | nil =>
    intro h _ _
    refine ⟨h, rfl, ?_, ?_, ?_, rfl, rfl⟩
    · intro d
      simp [sendAfter]
    · simp [timedOut]
    · intro r
      simp [timedOut]
  | cons c cs ih =>
    intro h hnd hopen
    have hc_notin : c ∉ cs := (List.nodup_cons.mp hnd).1
    have hcs : cs.Nodup := (List.nodup_cons.mp hnd).2
    have hc_open : (h.send c).closed = false := hopen c (List.mem_cons_self c cs)
    by_cases hroom : (h.send c).buf.length < (h.send c).cap
    · -- the queue has room: the envelope is enqueued
      have hstep : sendLoop data h (c :: cs) =
          sendLoop data { h with send := Function.update h.send c ((h.send c).push data) }
            cs := by
        simp [sendLoop, Chan.trySend, hc_open, hroom]
      have hopen1 : ∀ d ∈ cs,
          ((Function.update h.send c ((h.send c).push data)) d).closed = false := by
        intro d hd
        have hne : d ≠ c := fun e => hc_notin (e ▸ hd)
        rw [Function.update_noteq hne]
        exact hopen d (List.mem_cons_of_mem c hd)
      obtain ⟨h1, hrun, hS, hC, hM, hP, hA⟩ :=
        ih { h with send := Function.update h.send c ((h.send c).push data) } hcs hopen1
      refine ⟨h1, by rw [hstep, hrun], ?_, ?_, ?_, hP, hA⟩
      · intro d
        rw [hS d]
        by_cases hd : d = c
        · subst hd
          simp [sendAfter, hc_notin, hroom]
        · simp [sendAfter, hd, Function.update_noteq hd]
      · rw [hC]
        apply List.filter_congr
        intro d _
        by_cases hd : d = c
        · subst hd
          simp [timedOut, hc_notin, hroom]
        · simp [timedOut, hd, Function.update_noteq hd]
      · intro r
        rw [hM r]
        apply List.filter_congr
        intro d _
        by_cases hd : d = c
        · subst hd
          simp [timedOut, hc_notin, hroom]
        · simp [timedOut, hd, Function.update_noteq hd]
    · -- the queue stays full: the recipient is removed
      have hfull : (h.send c).cap ≤ (h.send c).buf.length := Nat.le_of_not_lt hroom
      have hstep : sendLoop data h (c :: cs) = sendLoop data (removeClient h c) cs := by
        simp [sendLoop, Chan.trySend, hc_open, hroom]
      have hsend1 : ∀ d, d ≠ c → (removeClient h c).send d = h.send d := by
        intro d hd
        rw [removeClient_send]
        simp [hd]
      have hopen1 : ∀ d ∈ cs, ((removeClient h c).send d).closed = false := by
        intro d hd
        have hne : d ≠ c := fun e => hc_notin (e ▸ hd)
        rw [hsend1 d hne]
        exact hopen d (List.mem_cons_of_mem c hd)
      obtain ⟨h1, hrun, hS, hC, hM, hP, hA⟩ := ih (removeClient h c) hcs hopen1
      have hmem1 : ∀ d, d ≠ c → (d ∈ (removeClient h c).clients ↔ d ∈ h.clients) := by
        intro d hd
        rw [removeClient_clients, mem_setDelete]
        exact ⟨fun x => x.1, fun x => ⟨x, hd⟩⟩
      refine ⟨h1, by rw [hstep, hrun], ?_, ?_, ?_,
        hP.trans (removeClient_policy h c).1, hA.trans (removeClient_policy h c).2⟩
      · intro d
        rw [hS d]
        by_cases hd : d = c
        · subst hd
          simp [sendAfter, hc_notin, hroom, removeClient_send]
        · simp [sendAfter, hd, hsend1 d hd, hmem1 d hd]
      · rw [hC, removeClient_clients]
        unfold setDelete
        rw [List.filter_filter]
        apply List.filter_congr
        intro d _
        by_cases hd : d = c
        · subst hd
          simp [timedOut, hfull]
        · simp [timedOut, hd, hsend1 d hd]
      · intro r
        rw [hM r]
        by_cases hc : c ∈ h.clients
        · rw [removeClient_members h c hc r]
          by_cases hr : r = c.room
          · subst hr
            simp only [if_true]
            unfold setDelete
            rw [List.filter_filter]
            apply List.filter_congr
            intro d _
            by_cases hd : d = c
            · subst hd
              simp [timedOut, hfull, hc]
            · simp [timedOut, hd, hsend1 d hd, hmem1 d hd]
          · simp only [hr, if_false]
            apply List.filter_congr
            intro d _
            by_cases hd : d = c
            · subst hd
              simp [timedOut, hc_notin, Ne.symm hr]
            · simp [timedOut, hd, hsend1 d hd, hmem1 d hd]
        · rw [removeClient_of_not_mem h c hc]
          apply List.filter_congr
          intro d _
          by_cases hd : d = c
          · subst hd
            simp [timedOut, hc_notin, hc]
          · simp [timedOut, hd]

theorem sendLoop_of_room (data : Bytes) :
    ∀ (L : List Client) (h : Hub), L.Nodup →
      (∀ c ∈ L, (h.send c).closed = false ∧ (h.send c).hasRoom) →
      sendLoop data h L = some (delivered data h L) := by
  intro L
  induction L with
  | nil =>
    intro h _ _
    simp [sendLoop, delivered]
  | cons c cs ih =>
    intro h hnd hok
    have hc_notin : c ∉ cs := (List.nodup_cons.mp hnd).1
    have hcs : cs.Nodup := (List.nodup_cons.mp hnd).2
    obtain ⟨hc_open, hc_room⟩ := hok c (List.mem_cons_self c cs)
    unfold Chan.hasRoom at hc_room
    have hstep : sendLoop data h (c :: cs) =
        sendLoop data { h with send := Function.update h.send c ((h.send c).push data) }
          cs := by
      simp [sendLoop, Chan.trySend, hc_open, hc_room]
    rw [hstep, ih { h with send := Function.update h.send c ((h.send c).push data) } hcs]
    · unfold delivered
      congr 2
      funext d
      by_cases hd : d = c
      · subst hd
        simp [hc_notin]
      · simp [hd, Function.update_noteq hd]
    · intro d hd
      have hne : d ≠ c := fun e => hc_notin (e ▸ hd)
      simp only [Function.update_noteq hne]
      exact hok d (List.mem_cons_of_mem c hd)

/-! ## Mention parsing -/

theorem data_of_hasPrefix_at (text : String) (hText : HasPrefix text "@" = true) :
    ∃ rest, text.data = '@' :: rest := by
  unfold HasPrefix at hText
  have hat : "@".data = ['@'] := rfl
  rw [hat] at hText
  cases hd : text.data with
  | nil => rw [hd] at hText; simp [List.isPrefixOf] at hText
  | cons x rest =>
    rw [hd] at hText
    simp [List.isPrefixOf] at hText
    exact ⟨rest, by rw [hText]⟩

theorem splitN_first (text : String) (hText : HasPrefix text "@" = true) :
    ∃ parts, SplitN text ' ' 2 =
      String.mk ('@' :: (text.data.drop 1).takeWhile (fun x => x != ' ')) :: parts := by
  obtain ⟨rest, hrest⟩ := data_of_hasPrefix_at text hText
  unfold SplitN
  rw [hrest]
  have hspan : List.span (fun x => x != ' ') ('@' :: rest) =
      ('@' :: rest.takeWhile (fun x => x != ' '), rest.dropWhile (fun x => x != ' ')) := by
    rw [List.span_eq_take_drop]
    simp [List.takeWhile, List.dropWhile]
  unfold splitChars
  rw [hspan]
  cases hdw : rest.dropWhile (fun x => x != ' ') with
  | nil => exact ⟨[], by simp⟩
  | cons y ys => exact ⟨(splitChars ' ' 1 ys).map String.mk, by simp⟩

theorem trimPrefix_at (cs : List Char) : TrimPrefix (String.mk ('@' :: cs)) "@" = String.mk cs := by
  have hat : "@".data = ['@'] := rfl
  simp [TrimPrefix, HasPrefix, hat, List.isPrefixOf]

theorem routeMention_of_mention (msg : WebSocketMessage) (d : ChatData)
    (hType : msg.Type_ = "chat") (hData : msg.Data = .chat d)
    (hText : HasPrefix d.Text "@" = true) :
    routeMention msg = some (mentionName d.Text, d.From) := by
  obtain ⟨parts, hparts⟩ := splitN_first d.Text hText
  unfold routeMention
  rw [hData]
  simp only [hType, hText, if_true, hparts, trimPrefix_at]
  rfl

theorem parseMentions_of_mention (text : String) (hText : HasPrefix text "@" = true) :
    parseMentions text = [mentionName text] := by
  obtain ⟨parts, hparts⟩ := splitN_first text hText
  unfold parseMentions
  simp only [hText, if_true, hparts, trimPrefix_at]
  rfl

/-! ## Routing -/

theorem routeMention_of_plain (msg : WebSocketMessage) (d : ChatData)
    (hData : msg.Data = .chat d) (hText : HasPrefix d.Text "@" = false) :
    routeMention msg = none := by
  unfold routeMention
  rw [hData]
  simp [hText]

/-- C1. Room broadcast: a chat envelope whose text does not start with `@` is
delivered exactly once to every member of the room of the envelope (the queue
of the member grows by the serialized envelope), and the queue of every
session outside that member set is unchanged; membership is unchanged. -/
theorem route_room_broadcast (marshal : WebSocketMessage → Option Bytes) (h : Hub)
    (msg : WebSocketMessage) (d : ChatData) (data : Bytes)
    (hType : msg.Type_ = "chat") (hData : msg.Data = .chat d)
    (hText : HasPrefix d.Text "@" = false)
    (hMarshal : marshal msg = some data)
    (hNodup : (h.members msg.Room).Nodup)
    (hRoom : ∀ c ∈ h.members msg.Room, (h.send c).closed = false ∧ (h.send c).hasRoom) :
    ∃ h1, route marshal h msg = some h1 ∧
      (∀ c ∈ h.members msg.Room, (h1.send c).buf = (h.send c).buf ++ [data]) ∧
      (∀ c, c ∉ h.members msg.Room → h1.send c = h.send c) ∧
      h1.clients = h.clients ∧ h1.rooms = h.rooms := by
  have _ := hType
  have hroute : route marshal h msg = sendToRoom h msg.Room data := by
    unfold route
    rw [hMarshal, routeMention_of_plain msg d hData hText]
  rw [hroute]
  unfold sendToRoom
  cases hget : mapGet msg.Room h.rooms with
  | none =>
    refine ⟨h, rfl, ?_, fun _ _ => rfl, rfl, rfl⟩
    intro c hc
    simp [Hub.members, hget] at hc
  | some L =>
    have hmem : h.members msg.Room = L := by simp [Hub.members, hget]
    rw [hmem] at hNodup hRoom
    refine ⟨delivered data h L, sendLoop_of_room data L h hNodup hRoom, ?_, ?_, rfl, rfl⟩
    · intro c hc
      rw [hmem] at hc
      simp [delivered, hc, Chan.push]
    · intro c hc
      rw [hmem] at hc
      simp [delivered, hc]

/-- Witness of C1: alice says "hello" in the lobby; alice, bob and carol get
one copy each, and dave, in the other room, gets none. -/
theorem route_room_broadcast_witness :
    ∃ h1, route sampleMarshal lobbyHub (chatFrom alice "hello" []) = some h1 ∧
      (∀ c ∈ lobbyHub.members "lobby",
        (h1.send c).buf = (lobbyHub.send c).buf ++ ["chat|lobby|alice|hello"]) ∧
      (∀ c, c ∉ lobbyHub.members "lobby" → h1.send c = lobbyHub.send c) ∧
      h1.clients = lobbyHub.clients ∧ h1.rooms = lobbyHub.rooms :=
  route_room_broadcast sampleMarshal lobbyHub (chatFrom alice "hello" [])
    { From := "alice", FromId := "session-01", Text := "hello", Mention := [] }
    "chat|lobby|alice|hello" rfl rfl (by decide) (by decide) (by decide) (by decide)

theorem sendToUser_of_room (h : Hub) (name : String) (data : Bytes) (hNodup : h.clients.Nodup)
    (hok : ∀ c ∈ h.clients, c.name = name → (h.send c).closed = false ∧ (h.send c).hasRoom) :
    sendToUser h name data =
      some (delivered data h (h.clients.filter (fun c => decide (c.name = name)))) := by
  unfold sendToUser
  apply sendLoop_of_room data _ h (hNodup.filter _)
  intro c hc
  rw [List.mem_filter] at hc
  exact hok c hc.1 (by simpa using hc.2)

/-- C2 (amended). Mention routing: for a chat envelope whose text starts with
`@`, with `name` the text between the `@` and the first space, every session of
the global set receives one copy when its display name is `name`, and one more
copy when its display name is that of the sender: one copy when exactly one of
the two holds, two copies when both hold, none otherwise. Sessions outside the
global set receive nothing, and membership is unchanged. -/
theorem route_mention (marshal : WebSocketMessage → Option Bytes) (h : Hub)
    (msg : WebSocketMessage) (d : ChatData) (data : Bytes)
    (hType : msg.Type_ = "chat") (hData : msg.Data = .chat d)
    (hText : HasPrefix d.Text "@" = true)
    (hMarshal : marshal msg = some data)
    (hNodup : h.clients.Nodup)
    (hRoom : ∀ c ∈ h.clients, 0 < mentionCopies (mentionName d.Text) d.From c →
      (h.send c).closed = false ∧
        (h.send c).buf.length + mentionCopies (mentionName d.Text) d.From c ≤ (h.send c).cap) :
    ∃ h1, route marshal h msg = some h1 ∧
      (∀ c ∈ h.clients, (h1.send c).buf =
        (h.send c).buf ++ List.replicate (mentionCopies (mentionName d.Text) d.From c) data) ∧
      (∀ c, c ∉ h.clients → h1.send c = h.send c) ∧
      h1.clients = h.clients ∧ h1.rooms = h.rooms := by
  have hroute : route marshal h msg =
      match sendToUser h (mentionName d.Text) data with
      | some h1 => sendToUser h1 d.From data
      | none => none := by
    unfold route
    rw [hMarshal, routeMention_of_mention msg d hType hData hText]
  have hfirst : sendToUser h (mentionName d.Text) data =
      some (delivered data h
        (h.clients.filter (fun c => decide (c.name = mentionName d.Text)))) := by
    apply sendToUser_of_room h _ data hNodup
    intro c hc hname
    have hpos : 0 < mentionCopies (mentionName d.Text) d.From c := by
      simp [mentionCopies, hname]
    obtain ⟨ho, hr⟩ := hRoom c hc hpos
    refine ⟨ho, ?_⟩
    unfold Chan.hasRoom
    omega
  have hsecond : sendToUser (delivered data h
        (h.clients.filter (fun c => decide (c.name = mentionName d.Text)))) d.From data =
      some (delivered data (delivered data h
        (h.clients.filter (fun c => decide (c.name = mentionName d.Text))))
        (h.clients.filter (fun c => decide (c.name = d.From)))) := by
    refine sendToUser_of_room (delivered data h
      (h.clients.filter (fun c => decide (c.name = mentionName d.Text)))) d.From data hNodup ?_
    intro c hc hname
    have hc0 : c ∈ h.clients := hc
    have hpos : 0 < mentionCopies (mentionName d.Text) d.From c := by
      simp [mentionCopies, hname]
    obtain ⟨ho, hr⟩ := hRoom c hc0 hpos
    by_cases ht : c.name = mentionName d.Text
    · have ht2 : mentionName d.Text = d.From := by rw [← ht, hname]
      simp [mentionCopies, hname, ht2] at hr
      simp [delivered, Chan.hasRoom, Chan.push, hc0, hname, ht2, ho]
      omega
    · simp [mentionCopies, hname, ht] at hr
      simp [delivered, Chan.hasRoom, hc0, ht, ho]
      omega
  rw [hroute, hfirst]
  refine ⟨_, hsecond, ?_, ?_, rfl, rfl⟩
  · intro c hc
    by_cases ht : c.name = mentionName d.Text
    · by_cases hs : c.name = d.From
      · have ht2 : mentionName d.Text = d.From := by rw [← ht, hs]
        simp [delivered, Chan.push, mentionCopies, hc, hs, ht2, List.replicate]
      · have ht2 : ¬ mentionName d.Text = d.From := fun e => hs (ht.trans e)
        simp [delivered, Chan.push, mentionCopies, hc, ht, ht2, List.replicate]
    · by_cases hs : c.name = d.From
      · have ht2 : ¬ d.From = mentionName d.Text := fun e => ht (hs.trans e)
        simp [delivered, Chan.push, mentionCopies, hc, hs, ht2, List.replicate]
      · simp [delivered, Chan.push, mentionCopies, hc, ht, hs, List.replicate]
  · intro c hc
    simp [delivered, hc]

/-- Witness of C2 (amended): alice, in the lobby with bob and carol, sends
"@bob hi"; bob and alice get one copy each, carol and dave get none. -/
theorem route_mention_witness :
    ∃ h1, route sampleMarshal lobbyHub (chatFrom alice "@bob hi" ["bob"]) = some h1 ∧
      (h1.send bob).buf = ["chat|lobby|alice|@bob hi"] ∧
      (h1.send alice).buf = ["chat|lobby|alice|@bob hi"] ∧
      (h1.send carol).buf = [] ∧ (h1.send dave).buf = [] := by
  obtain ⟨h1, hr, hb, _, _, _⟩ := route_mention sampleMarshal lobbyHub
    (chatFrom alice "@bob hi" ["bob"])
    { From := "alice", FromId := "session-01", Text := "@bob hi", Mention := ["bob"] }
    "chat|lobby|alice|@bob hi" rfl rfl (by decide) (by decide) (by decide) (by decide)
  exact ⟨h1, hr, hb bob (by decide), hb alice (by decide), hb carol (by decide),
    hb dave (by decide)⟩

/-- Counterexample to C2 as stated: alice sends "@alice hi". Her display name
equals the target name and the name of the sender, and she receives two copies
of the envelope, not exactly one. -/
theorem route_mention_self_two_copies :
    alice ∈ lobbyHub.clients ∧ alice.name = mentionName "@alice hi" ∧
      (route sampleMarshal lobbyHub (chatFrom alice "@alice hi" ["alice"])).map
          (fun h1 => (h1.send alice).buf) =
        some ((lobbyHub.send alice).buf ++
          ["chat|lobby|alice|@alice hi", "chat|lobby|alice|@alice hi"]) ∧
      ¬ ∃ h1, route sampleMarshal lobbyHub (chatFrom alice "@alice hi" ["alice"]) = some h1 ∧
          (h1.send alice).buf = (lobbyHub.send alice).buf ++ ["chat|lobby|alice|@alice hi"] := by
  have heval : (route sampleMarshal lobbyHub (chatFrom alice "@alice hi" ["alice"])).map
      (fun h1 => (h1.send alice).buf) =
        some ((lobbyHub.send alice).buf ++
          ["chat|lobby|alice|@alice hi", "chat|lobby|alice|@alice hi"]) := by decide
  refine ⟨by decide, by decide, heval, ?_⟩
  rintro ⟨h1, hr, hb⟩
  rw [hr] at heval
  simp only [Option.map_some', Option.some.injEq] at heval
  rw [hb] at heval
  exact absurd heval (by decide)

/-! ## Validation -/

theorem badRune_eq_false_iff (r : Char) :
    badRune r = false ↔ (r.toNat < 32 → r = '\t' ∨ r = '\n' ∨ r = '\r') := by
  unfold badRune
  by_cases h32 : r.toNat < 32
  · by_cases ht : r = '\t'
    · simp [h32, ht]
    · by_cases hn : r = '\n'
      · simp [h32, hn]
      · by_cases hr : r = '\r'
        · simp [h32, hr]
        · simp [h32, ht, hn, hr]
  · simp [h32]

theorem checkRunes_ok_iff (rs : List Char) :
    checkRunes rs = .ok () ↔ ∀ r ∈ rs, badRune r = false := by
  induction rs with
  | nil => simp [checkRunes]
  | cons r rs ih =>
    unfold checkRunes
    by_cases hb : badRune r = true
    · simp [hb]
    · have hb2 : badRune r = false := by simpa using hb
      simp [hb2, ih]

theorem validateMessage_ok_iff_rules (msg : ClientMessage) :
    validateMessage msg = .ok () ↔
      msg.Type_ = "chat" ∧ 1 ≤ len msg.Text ∧ len msg.Text ≤ 4096 ∧
        ∀ r ∈ msg.Text.data, r.toNat < 32 → r = '\t' ∨ r = '\n' ∨ r = '\r' := by
  unfold validateMessage maxMessageLength
  by_cases hT : msg.Type_ = "chat"
  · by_cases h0 : len msg.Text = 0
    · simp [hT, h0]
    · by_cases hL : len msg.Text > 4096
      · rw [if_neg (not_not.mpr hT), if_neg h0, if_pos hL]
        constructor
        · intro h; cases h
        · intro h; omega
      · rw [if_neg (not_not.mpr hT), if_neg h0, if_neg hL, checkRunes_ok_iff]
        simp only [badRune_eq_false_iff]
        constructor
        · intro h; exact ⟨hT, by omega, by omega, h⟩
        · intro h; exact h.2.2.2
  · simp [hT]

theorem len_replicate_a (n : Nat) : len (String.mk (List.replicate n 'a')) = n := by
  unfold len String.utf8ByteSize
  induction n with
  | zero => rfl
  | succ n ih =>
    have h1 : Char.utf8Size 'a' = 1 := by decide
    simp only [List.replicate_succ, String.utf8ByteSize.go] at ih ⊢
    omega

/-- The two boundary texts: 4096 bytes are accepted, 4097 bytes are rejected
as too long. -/
theorem validateMessage_boundary :
    validateMessage { Type_ := "chat", Text := String.mk (List.replicate 4096 'a') } = .ok () ∧
      validateMessage { Type_ := "chat", Text := String.mk (List.replicate 4097 'a') } =
        .error "message too long" := by
  constructor
  · rw [validateMessage_ok_iff_rules]
    refine ⟨rfl, ?_, ?_, ?_⟩
    · rw [len_replicate_a]; omega
    · rw [len_replicate_a]
    · intro r hr h32
      have hra : r = 'a' := List.eq_of_mem_replicate hr
      rw [hra] at h32
      exact absurd h32 (by decide)
  · unfold validateMessage maxMessageLength
    simp only [len_replicate_a]
    rfl

/-- C3 (amended). `validateMessage` accepts a client message if and only if
its type is "chat", the byte length of its text is at least 1 and at most
4096, and no character of the text has a code point below 32 other than tab,
newline and carriage return. In particular a text of 4096 bytes that passes
the other two rules is accepted, and a text of 4097 bytes or one holding a
character below 32 other than those three is rejected. -/
theorem validateMessage_accepts_iff (msg : ClientMessage) :
    (validateMessage msg = .ok () ↔
      msg.Type_ = "chat" ∧ 1 ≤ len msg.Text ∧ len msg.Text ≤ 4096 ∧
        ∀ r ∈ msg.Text.data, r.toNat < 32 → r = '\t' ∨ r = '\n' ∨ r = '\r') ∧
    (msg.Type_ = "chat" → len msg.Text = 4096 →
      (∀ r ∈ msg.Text.data, r.toNat < 32 → r = '\t' ∨ r = '\n' ∨ r = '\r') →
      validateMessage msg = .ok ()) ∧
    (len msg.Text = 4097 → validateMessage msg ≠ .ok ()) ∧
    (∀ r ∈ msg.Text.data, r.toNat < 32 → r ≠ '\t' → r ≠ '\n' → r ≠ '\r' →
      validateMessage msg ≠ .ok ()) := by
  have hiff := validateMessage_ok_iff_rules msg
  refine ⟨hiff, ?_, ?_, ?_⟩
  · intro hT hL hR
    exact hiff.mpr ⟨hT, by omega, by omega, hR⟩
  · intro hL hok
    have := (hiff.mp hok).2.2.1
    omega
  · intro r hr h32 ht hn hc hok
    rcases (hiff.mp hok).2.2.2 r hr h32 with h | h | h
    · exact ht h
    · exact hn h
    · exact hc h

/-- Counterexample to C3 as stated: the text made of the control character DEL
(U+007F), which is not tab, newline or carriage return, is accepted. -/
theorem validateMessage_accepts_del :
    validateMessage delFrame = .ok () ∧ ¬ specValid delFrame ∧
      Char.ofNat 127 ∈ delFrame.Text.data ∧ isControl (Char.ofNat 127) = true ∧
      Char.ofNat 127 ≠ '\t' ∧ Char.ofNat 127 ≠ '\n' ∧ Char.ofNat 127 ≠ '\r' := by
  refine ⟨rfl, ?_, by decide, by decide, by decide, by decide, by decide⟩
  rintro ⟨_, _, _, h⟩
  have := h (Char.ofNat 127) (by decide) (by decide)
  revert this
  decide

/-! ## Room admission and the directory -/

/-- C4. `IsRoomAllowed` is true for every name when the dynamic-room policy is
enabled; when the policy is disabled it is true exactly for the names of the
predefined-room set. So it is true after a successful `CreateRoom` of the name
(which succeeds for every name not yet predefined), and false, with the policy
disabled, for a name that is not predefined. -/
theorem isRoomAllowed_spec (h : Hub) (name : String) :
    (h.allowDynamicRooms = true → IsRoomAllowed h name = true) ∧
    (h.allowDynamicRooms = false →
      (IsRoomAllowed h name = true ↔ name ∈ h.predefinedRooms)) ∧
    (∀ h1, CreateRoom h name = .ok h1 → IsRoomAllowed h1 name = true) ∧
    (name ∉ h.predefinedRooms →
      ∃ h1, CreateRoom h name = .ok h1 ∧ IsRoomAllowed h1 name = true) ∧
    (h.allowDynamicRooms = false → name ∉ h.predefinedRooms →
      IsRoomAllowed h name = false) := by
  have hcreate : ∀ h1, CreateRoom h name = .ok h1 → IsRoomAllowed h1 name = true := by
    intro h1 hc
    unfold CreateRoom at hc
    by_cases hmem : name ∈ h.predefinedRooms
    · simp [hmem] at hc
    · simp only [hmem, if_false, Except.ok.injEq] at hc
      subst hc
      unfold IsRoomAllowed
      by_cases ha : h.allowDynamicRooms = true
      · simp [ha]
      · simp [ha, mem_setInsert]
  refine ⟨?_, ?_, hcreate, ?_, ?_⟩
  · intro ha
    simp [IsRoomAllowed, ha]
  · intro ha
    simp [IsRoomAllowed, ha]
  · intro hmem
    have hok : CreateRoom h name =
        .ok { h with predefinedRooms := setInsert name h.predefinedRooms } := by
      simp [CreateRoom, hmem]
    exact ⟨_, hok, hcreate _ hok⟩
  · intro ha hmem
    simp [IsRoomAllowed, ha, hmem]

theorem handleUnregister_fst (h : Hub) (c : Client) (now : String) :
    (handleUnregister h c now).1 = removeClient h c := by
  unfold handleUnregister removeClient
  by_cases hc : c ∈ h.clients
  · simp only [hc, if_true]
    split
    · split <;> rfl
    · rfl
  · simp [hc]

theorem filter_map_name_nodup (f : String → Nat) (k : String) :
    ∀ (l : List String), l.Nodup → k ∈ l →
      (l.map (fun x => ({ Name := x, UserCount := f x } : RoomInfo))).filter
        (fun i => decide (i.Name = k)) = [{ Name := k, UserCount := f k }] := by
  intro l
  induction l with
  | nil => intro _ hk; cases hk
  | cons a l ih =>
    intro hnd hk
    have ha : a ∉ l := (List.nodup_cons.mp hnd).1
    have hl : l.Nodup := (List.nodup_cons.mp hnd).2
    by_cases hak : a = k
    · subst hak
      have hnone : (l.map (fun x => ({ Name := x, UserCount := f x } : RoomInfo))).filter
          (fun i => decide (i.Name = a)) = [] := by
        rw [List.filter_eq_nil_iff]
        intro i hi
        rw [List.mem_map] at hi
        obtain ⟨x, hx, rfl⟩ := hi
        have : x ≠ a := fun e => ha (e ▸ hx)
        simpa using this
      simp [List.filter_cons, hnone]
    · have hk2 : k ∈ l := by
        rcases List.mem_cons.mp hk with h | h
        · exact absurd h.symm hak
        · exact h
      simp [List.filter_cons, hak, ih hl hk2]

/-- The directory of a state whose partition has no entry for the room `k`. -/
theorem getRooms_of_absent (g : Hub) (k : String) (habs : ∀ p ∈ g.rooms, p.1 ≠ k) :
    (k ∉ g.predefinedRooms → ∀ info ∈ GetRooms g, info.Name ≠ k) ∧
    (k ∈ g.predefinedRooms → g.predefinedRooms.Nodup →
      (GetRooms g).filter (fun i => decide (i.Name = k)) = [{ Name := k, UserCount := 0 }]) := by
  have hget : ∀ (m : List (String × List Client)), (∀ p ∈ m, p.1 ≠ k) → mapGet k m = none := by
    intro m
    induction m with
    | nil => intro _; rfl
    | cons p m ih =>
      intro hp
      obtain ⟨k1, v1⟩ := p
      have h1 : k1 ≠ k := hp (k1, v1) (List.mem_cons_self _ _)
      simp only [mapGet, h1, if_false]
      exact ih (fun q hq => hp q (List.mem_cons_of_mem _ hq))
  let f : String → Nat := fun x => ((mapGet x g.rooms).map List.length).getD 0
  let pre : List RoomInfo := g.predefinedRooms.map (fun x => { Name := x, UserCount := f x })
  let dyn : List RoomInfo := (g.rooms.filter (fun p => decide (p.1 ∉ g.predefinedRooms))).map
    (fun p => { Name := p.1, UserCount := p.2.length })
  have hrooms : GetRooms g = if g.allowDynamicRooms = true then pre ++ dyn else pre := by
    have hpre : g.predefinedRooms.map (fun roomName =>
        match mapGet roomName g.rooms with
        | some activeRoom => ({ Name := roomName, UserCount := activeRoom.length } : RoomInfo)
        | none => { Name := roomName, UserCount := 0 }) = pre := by
      apply List.map_congr_left
      intro x _
      show _ = ({ Name := x, UserCount := f x } : RoomInfo)
      show _ = ({ Name := x, UserCount := ((mapGet x g.rooms).map List.length).getD 0 } : RoomInfo)
      cases mapGet x g.rooms <;> rfl
    unfold GetRooms
    simp only
    rw [hpre]
  have hdyn : ∀ i ∈ dyn, i.Name ≠ k := by
    intro i hi
    obtain ⟨p, hp, rfl⟩ := List.mem_map.mp hi
    exact habs p (List.mem_filter.mp hp).1
  have hfk : f k = 0 := by
    show ((mapGet k g.rooms).map List.length).getD 0 = 0
    rw [hget g.rooms habs]
    rfl
  constructor
  · intro hk info hinfo
    rw [hrooms] at hinfo
    have hcase : info ∈ pre ∨ info ∈ dyn := by
      by_cases ha : g.allowDynamicRooms = true
      · rw [if_pos ha] at hinfo
        exact List.mem_append.mp hinfo
      · rw [if_neg ha] at hinfo
        exact Or.inl hinfo
    rcases hcase with h1 | h1
    · obtain ⟨x, hx, rfl⟩ := List.mem_map.mp h1
      exact fun e => hk (e ▸ hx)
    · exact hdyn info h1
  · intro hk hnd
    have hfilt : pre.filter (fun i => decide (i.Name = k)) = [{ Name := k, UserCount := 0 }] := by
      have h0 := filter_map_name_nodup f k g.predefinedRooms hnd hk
      rw [hfk] at h0
      exact h0
    have hdyn0 : dyn.filter (fun i => decide (i.Name = k)) = [] := by
      rw [List.filter_eq_nil_iff]
      intro i hi
      simpa using hdyn i hi
    rw [hrooms]
    by_cases ha : g.allowDynamicRooms = true
    · rw [if_pos ha, List.filter_append, hfilt, hdyn0, List.append_nil]
    · rw [if_neg ha]
      exact hfilt

theorem removeClient_rooms_last (h : Hub) (c : Client) (room : List Client)
    (hc : c ∈ h.clients) (hroom : mapGet c.room h.rooms = some room)
    (honly : ∀ x ∈ room, x = c) :
    (removeClient h c).rooms = mapDelete c.room h.rooms := by
  rw [removeClient_rooms h c hc, hroom]
  have hempty : setDelete c room = [] := by
    unfold setDelete
    rw [List.filter_eq_nil_iff]
    intro x hx
    simp [honly x hx]
  simp [hempty]

/-- C5. Last-member eviction and the directory: when session `c` is the only
member of its room, after its eviction (by the `unregister` event, and also by
`removeClient`) `GetRooms` has no entry for that room if the room is not
predefined, and its entries for that room are exactly one entry with user
count 0 if the room is predefined. -/
theorem last_member_eviction_directory (h : Hub) (c : Client) (now : String)
    (room : List Client) (hc : c ∈ h.clients)
    (hroom : mapGet c.room h.rooms = some room) (hin : c ∈ room)
    (honly : ∀ x ∈ room, x = c) (hpre : h.predefinedRooms.Nodup) :
    (c.room ∉ h.predefinedRooms →
      (∀ info ∈ GetRooms (handleUnregister h c now).1, info.Name ≠ c.room) ∧
      (∀ info ∈ GetRooms (removeClient h c), info.Name ≠ c.room)) ∧
    (c.room ∈ h.predefinedRooms →
      (GetRooms (handleUnregister h c now).1).filter (fun i => decide (i.Name = c.room)) =
        [{ Name := c.room, UserCount := 0 }] ∧
      (GetRooms (removeClient h c)).filter (fun i => decide (i.Name = c.room)) =
        [{ Name := c.room, UserCount := 0 }]) := by
  have _ := hin
  have hrooms := removeClient_rooms_last h c room hc hroom honly
  have hP : (removeClient h c).predefinedRooms = h.predefinedRooms :=
    (removeClient_policy h c).1
  have habs : ∀ p ∈ (removeClient h c).rooms, p.1 ≠ c.room := by
    intro p hp
    rw [hrooms] at hp
    unfold mapDelete at hp
    simpa using (List.mem_filter.mp hp).2
  obtain ⟨h1, h2⟩ := getRooms_of_absent (removeClient h c) c.room habs
  rw [hP] at h1 h2
  rw [handleUnregister_fst]
  exact ⟨fun hk => ⟨h1 hk, h1 hk⟩, fun hk => ⟨h2 hk hpre, h2 hk hpre⟩⟩

/-- Witness of C5: dave is the only member of the dynamic room "den", and
alice is the only member of the predefined room "lobby". -/
theorem last_member_eviction_directory_witness :
    (∀ info ∈ GetRooms (handleUnregister lobbyHub dave "2024-01-01T00:00:00Z").1,
      info.Name ≠ "den") ∧
    (GetRooms (handleUnregister soloHub alice "2024-01-01T00:00:00Z").1).filter
      (fun i => decide (i.Name = "lobby")) = [{ Name := "lobby", UserCount := 0 }] :=
  ⟨((last_member_eviction_directory lobbyHub dave "2024-01-01T00:00:00Z" [dave]
      (by decide) rfl (by decide) (by decide) (by decide)).1 (by decide)).1,
   ((last_member_eviction_directory soloHub alice "2024-01-01T00:00:00Z" [alice]
      (by decide) rfl (by decide) (by decide) (by decide)).2 (by decide)).1⟩

/-! ## Eviction of slow recipients -/

theorem sendToRoom_eq_sendLoop (h : Hub) (room : String) (data : Bytes) :
    sendToRoom h room data = sendLoop data h (h.members room) := by
  unfold sendToRoom Hub.members
  cases mapGet room h.rooms <;> rfl

theorem passIsolated_of_passResult (data : Bytes) (h : Hub) (L : List Client) (h1 : Hub)
    (hres : PassResult data h L h1) : PassIsolated data h L h1 := by
  obtain ⟨hS, hC, hM, _, _⟩ := hres
  have hstay : ∀ s, ¬ (s ∈ L ∧ (h.send s).full) →
      (s ∈ h.clients → s ∈ h1.clients) ∧ ∀ r, s ∈ h.members r → s ∈ h1.members r := by
    intro s hs
    have hto : timedOut h L s = false := by
      unfold timedOut
      unfold Chan.full at hs
      by_cases h1 : s ∈ L
      · have h2 : ¬ (h.send s).cap ≤ (h.send s).buf.length := fun e => hs ⟨h1, e⟩
        simp [h1, h2]
      · simp [h1]
    constructor
    · intro hm
      rw [hC, List.mem_filter]
      exact ⟨hm, by simp [hto]⟩
    · intro r hm
      rw [hM r, List.mem_filter]
      exact ⟨hm, by simp [hto]⟩
  refine ⟨?_, ?_, hstay⟩
  · intro c hc hfull
    unfold Chan.full at hfull
    have hto : timedOut h L c = true := by simp [timedOut, hc, hfull]
    constructor
    · rw [hC, List.mem_filter]
      intro hx
      simp [hto] at hx
    · intro hcl
      rw [hM c.room, List.mem_filter]
      intro hx
      simp [hto, hcl] at hx
  · intro d hd hroom
    unfold Chan.hasRoom at hroom
    have hnf : ¬ (d ∈ L ∧ (h.send d).full) := by
      unfold Chan.full
      intro hx
      omega
    have hbuf : (h1.send d).buf = (h.send d).buf ++ [data] := by
      rw [hS d]
      simp [sendAfter, hd, hroom, Chan.push]
    exact ⟨hbuf, (hstay d hnf).1, (hstay d hnf).2⟩

/-- C6. Slow-recipient eviction is isolated. In a room broadcast and in a
mention delivery, a recipient whose queue is full for the whole deadline is
removed from the global set and from the member set of its room; every other
recipient whose queue has room receives its copy and keeps its place in the
global set and in its room; and no session other than a recipient with a full
queue, the sender included, is removed. -/
theorem slow_recipient_eviction_isolated (h : Hub) (room name : String) (data : Bytes)
    (hRoomSet : (h.members room).Nodup) (hGlobalSet : h.clients.Nodup)
    (hRoomOpen : ∀ c ∈ h.members room, (h.send c).closed = false)
    (hUserOpen : ∀ c ∈ h.clients, c.name = name → (h.send c).closed = false) :
    (∃ h1, sendToRoom h room data = some h1 ∧
      PassIsolated data h (h.members room) h1) ∧
    (∃ h1, sendToUser h name data = some h1 ∧
      PassIsolated data h (h.clients.filter (fun c => decide (c.name = name))) h1 ∧
      ∀ c ∈ h.clients, c.name = name → (h.send c).full →
        c ∉ h1.clients ∧ c ∉ h1.members c.room) := by
  constructor
  · obtain ⟨h1, hrun, hres⟩ := sendLoop_spec data (h.members room) h hRoomSet hRoomOpen
    exact ⟨h1, by rw [sendToRoom_eq_sendLoop, hrun],
      passIsolated_of_passResult data h _ h1 hres⟩
  · have hopen : ∀ c ∈ h.clients.filter (fun c => decide (c.name = name)),
        (h.send c).closed = false := by
      intro c hc
      rw [List.mem_filter] at hc
      exact hUserOpen c hc.1 (by simpa using hc.2)
    obtain ⟨h1, hrun, hres⟩ := sendLoop_spec data _ h (hGlobalSet.filter _) hopen
    have hiso := passIsolated_of_passResult data h _ h1 hres
    refine ⟨h1, hrun, hiso, ?_⟩
    intro c hc hname hfull
    have hcL : c ∈ h.clients.filter (fun c => decide (c.name = name)) := by
      rw [List.mem_filter]
      exact ⟨hc, by simpa using hname⟩
    exact ⟨(hiso.1 c hcL hfull).1, (hiso.1 c hcL hfull).2 hc⟩

/-- Witness of C6: alice, bob and carol are in the lobby and the queue of bob
is saturated. A broadcast to the lobby removes bob and still reaches alice and
carol, who stay; a delivery to the name "bob" removes bob and nobody else. -/
theorem slow_recipient_eviction_isolated_witness :
    (∃ h1, sendToRoom stuckHub "lobby" "hello" = some h1 ∧
      bob ∉ h1.clients ∧ bob ∉ h1.members "lobby" ∧
      (h1.send alice).buf = ["hello"] ∧ alice ∈ h1.clients ∧ alice ∈ h1.members "lobby" ∧
      (h1.send carol).buf = ["hello"] ∧ carol ∈ h1.clients ∧ carol ∈ h1.members "lobby") ∧
    (∃ h1, sendToUser stuckHub "bob" "hello" = some h1 ∧
      bob ∉ h1.clients ∧ bob ∉ h1.members "lobby" ∧
      alice ∈ h1.clients ∧ alice ∈ h1.members "lobby") := by
  obtain ⟨⟨h1, hr1, hi1⟩, ⟨h2, hr2, hi2, hu2⟩⟩ :=
    slow_recipient_eviction_isolated stuckHub "lobby" "bob" "hello"
      (by decide) (by decide) (by decide) (by decide)
  have hfull : (stuckHub.send bob).full := by
    show 1024 ≤ (List.replicate 1024 "old").length
    rw [List.length_replicate]
  have hbob := hi1.1 bob (by decide) hfull
  have halice := hi1.2.1 alice (by decide) (by decide)
  have hcarol := hi1.2.1 carol (by decide) (by decide)
  have hbob2 := hu2 bob (by decide) rfl hfull
  have halice2 := hi2.2.2 alice (by decide)
  exact ⟨⟨h1, hr1, hbob.1, hbob.2 (by decide), halice.1, halice.2.1 (by decide),
      halice.2.2 "lobby" (by decide), hcarol.1, hcarol.2.1 (by decide),
      hcarol.2.2 "lobby" (by decide)⟩,
    ⟨h2, hr2, hbob2.1, hbob2.2, halice2.1 (by decide), halice2.2 "lobby" (by decide)⟩⟩

/-! ## Leave notices -/

/-- The `unregister` path: when the room of `c` keeps a member, the loop emits
the leave notice of `c`, and `c` is no longer in the member set the notice is
routed to. -/
theorem handleUnregister_emits_leave (h : Hub) (c : Client) (now : String)
    (hc : c ∈ h.clients) (hrest : ∃ d ∈ h.members c.room, d ≠ c) :
    (handleUnregister h c now).2 =
        [{ Type_ := "user_event", Room := c.room, Timestamp := now,
           Data := .userEvent { Event := "leave", User := c.name } }] ∧
      c ∉ (handleUnregister h c now).1.members c.room ∧
      c ∉ (handleUnregister h c now).1.clients := by
  obtain ⟨d, hd, hne⟩ := hrest
  refine ⟨?_, ?_, ?_⟩
  · unfold handleUnregister
    simp only [hc, if_true]
    have hr : (closeClient { h with clients := setDelete c h.clients } c).rooms = h.rooms := rfl
    rw [hr]
    unfold Hub.members at hd
    cases hget : mapGet c.room h.rooms with
    | none => rw [hget] at hd; cases hd
    | some room =>
      rw [hget] at hd
      simp only [Option.getD_some] at hd
      have hmem : d ∈ setDelete c room := (mem_setDelete c d room).mpr ⟨hd, hne⟩
      have hlen : (setDelete c room).length ≠ 0 := by
        intro h0
        rw [List.length_eq_zero.mp h0] at hmem
        cases hmem
      simp only [hlen, if_false]
      rfl
  · rw [handleUnregister_fst, removeClient_members h c hc]
    simp [mem_setDelete]
  · rw [handleUnregister_fst, removeClient_clients]
    simp [mem_setDelete]

/-- C7 at the failing input. Alice, bob and carol are in the lobby and the
queue of bob is saturated. Routing a chat from alice evicts bob by
`removeClient`: bob leaves the global set and the lobby, alice and carol
remain, and the loop iteration emits no envelope, so no leave notice for bob;
the `unregister` event of bob in the same state emits that notice. -/
theorem forced_eviction_emits_no_leave :
    (∃ h1, runStep sampleMarshal "2024-01-01T00:00:05Z" stuckHub
        (.broadcast (chatFrom alice "hello" [])) = some (h1, []) ∧
      bob ∉ h1.clients ∧ bob ∉ h1.members "lobby" ∧
      alice ∈ h1.members "lobby" ∧ carol ∈ h1.members "lobby") ∧
    (handleUnregister stuckHub bob "2024-01-01T00:00:05Z").2 =
      [{ Type_ := "user_event", Room := "lobby", Timestamp := "2024-01-01T00:00:05Z",
         Data := .userEvent { Event := "leave", User := "bob" } }] := by
  constructor
  · have hroute : route sampleMarshal stuckHub (chatFrom alice "hello" []) =
        sendLoop "chat|lobby|alice|hello" stuckHub (stuckHub.members "lobby") := by
      have hm : sampleMarshal (chatFrom alice "hello" []) = some "chat|lobby|alice|hello" := by
        decide
      have hp : routeMention (chatFrom alice "hello" []) = none := by decide
      unfold route
      rw [hm, hp]
      exact sendToRoom_eq_sendLoop stuckHub "lobby" "chat|lobby|alice|hello"
    obtain ⟨h1, hrun, hres⟩ := sendLoop_spec "chat|lobby|alice|hello"
      (stuckHub.members "lobby") stuckHub (by decide) (by decide)
    have hiso := passIsolated_of_passResult _ _ _ _ hres
    have hfull : (stuckHub.send bob).full := by
      show 1024 ≤ (List.replicate 1024 "old").length
      rw [List.length_replicate]
    have hbob := hiso.1 bob (by decide) hfull
    refine ⟨h1, ?_, hbob.1, hbob.2 (by decide), ?_, ?_⟩
    · show (route sampleMarshal stuckHub (chatFrom alice "hello" [])).map
        (fun h1 => (h1, ([] : List WebSocketMessage))) = some (h1, [])
      rw [hroute, hrun]
      rfl
    · exact (hiso.2.1 alice (by decide) (by decide)).2.2 "lobby" (by decide)
    · exact (hiso.2.1 carol (by decide) (by decide)).2.2 "lobby" (by decide)
  · decide

/-! ## Idempotence of eviction -/

/-- C8. Eviction is idempotent: evicting a session that is not in the global
set, by the `unregister` event or by `removeClient`, leaves the whole state
unchanged and emits no envelope; hence a second eviction of the same session,
by either path after either path, changes nothing and emits nothing. -/
theorem eviction_idempotent (h : Hub) (c : Client) (now now2 : String) :
    (c ∉ h.clients → handleUnregister h c now = (h, []) ∧ removeClient h c = h) ∧
    handleUnregister (handleUnregister h c now).1 c now2 = ((handleUnregister h c now).1, []) ∧
    removeClient (handleUnregister h c now).1 c = (handleUnregister h c now).1 ∧
    handleUnregister (removeClient h c) c now2 = (removeClient h c, []) ∧
    removeClient (removeClient h c) c = removeClient h c := by
  have hnoop : ∀ g : Hub, c ∉ g.clients →
      handleUnregister g c now2 = (g, []) ∧ removeClient g c = g := by
    intro g hg
    exact ⟨by simp [handleUnregister, hg], removeClient_of_not_mem g c hg⟩
  have hgone : c ∉ (removeClient h c).clients := by
    rw [removeClient_clients]
    simp [mem_setDelete]
  have hgone2 : c ∉ (handleUnregister h c now).1.clients := by
    rw [handleUnregister_fst]
    exact hgone
  refine ⟨?_, (hnoop _ hgone2).1, (hnoop _ hgone2).2, (hnoop _ hgone).1, (hnoop _ hgone).2⟩
  intro hc
  exact ⟨by simp [handleUnregister, hc], removeClient_of_not_mem h c hc⟩

/-! ## Join notices -/

theorem handleRegister_members (h : Hub) (c : Client) (now : String) (r : String) :
    (handleRegister h c now).1.members r =
      if r = c.room then setInsert c (h.members r) else h.members r := by
  unfold handleRegister Hub.members
  simp only
  by_cases hr : r = c.room
  · subst hr
    rw [mapGet_mapSet_self]
    cases hget : mapGet c.room h.rooms with
    | none => simp [mapGet_mapSet_self]
    | some room => simp [hget]
  · rw [mapGet_mapSet_ne _ _ _ _ hr]
    cases hget : mapGet c.room h.rooms with
    | none => simp [hr, mapGet_mapSet_ne _ _ _ _ hr]
    | some room => simp [hr]

/-- C9. A session never misses its own join notice: the `register` case puts
`c` in the global set and in the member set of its room, which becomes the old
member set with `c` inserted, and emits the join notice of `c` for that room;
routing that notice in the resulting state is a delivery pass over that member
set, in which `c` and every member already in the room receive exactly one
copy when their queue has room. -/
theorem register_join_notice (marshal : WebSocketMessage → Option Bytes) (h : Hub)
    (c : Client) (now : String) (data : Bytes)
    (hMarshal : marshal (userEventMsg "join" c now) = some data)
    (hRoomSet : (h.members c.room).Nodup)
    (hOpen : ∀ d, d = c ∨ d ∈ h.members c.room → (h.send d).closed = false) :
    c ∈ (handleRegister h c now).1.clients ∧
    (∀ d, d ∈ (handleRegister h c now).1.clients ↔ d = c ∨ d ∈ h.clients) ∧
    c ∈ (handleRegister h c now).1.members c.room ∧
    (∀ d, d ∈ (handleRegister h c now).1.members c.room ↔ d = c ∨ d ∈ h.members c.room) ∧
    (handleRegister h c now).2 =
      [{ Type_ := "user_event", Room := c.room, Timestamp := now,
         Data := .userEvent { Event := "join", User := c.name } }] ∧
    ∃ h2, route marshal (handleRegister h c now).1 (userEventMsg "join" c now) = some h2 ∧
      ∀ d, d = c ∨ d ∈ h.members c.room → (h.send d).hasRoom →
        (h2.send d).buf = (h.send d).buf ++ [data] := by
  have hmem : ∀ d, d ∈ (handleRegister h c now).1.members c.room ↔
      d = c ∨ d ∈ h.members c.room := by
    intro d
    rw [handleRegister_members]
    simp [mem_setInsert]
  have hcl : ∀ d, d ∈ (handleRegister h c now).1.clients ↔ d = c ∨ d ∈ h.clients := by
    intro d
    show d ∈ setInsert c h.clients ↔ _
    exact mem_setInsert c d h.clients
  have hnd : ((handleRegister h c now).1.members c.room).Nodup := by
    rw [handleRegister_members]
    simp only [if_true]
    exact nodup_setInsert c _ hRoomSet
  have hsend : (handleRegister h c now).1.send = h.send := rfl
  have hopen : ∀ d ∈ (handleRegister h c now).1.members c.room,
      ((handleRegister h c now).1.send d).closed = false := by
    intro d hd
    rw [hsend]
    exact hOpen d ((hmem d).mp hd)
  have hroute : route marshal (handleRegister h c now).1 (userEventMsg "join" c now) =
      sendLoop data (handleRegister h c now).1 ((handleRegister h c now).1.members c.room) := by
    have hp : routeMention (userEventMsg "join" c now) = none := by
      unfold routeMention userEventMsg
      simp
    unfold route
    rw [hMarshal, hp]
    exact sendToRoom_eq_sendLoop _ c.room data
  obtain ⟨h2, hrun, hres⟩ := sendLoop_spec data _ _ hnd hopen
  have hiso := passIsolated_of_passResult _ _ _ _ hres
  refine ⟨(hcl c).mpr (Or.inl rfl), hcl, (hmem c).mpr (Or.inl rfl), hmem, rfl,
    h2, by rw [hroute, hrun], ?_⟩
  intro d hd hroom
  exact (hiso.2.1 d ((hmem d).mpr hd) hroom).1

/-- Witness of C9: carol registers in the state `soloHub`, where the lobby
holds alice only; carol and alice both receive the join notice of carol. -/
theorem register_join_notice_witness :
    carol ∈ (handleRegister soloHub carol "2024-01-01T00:00:00Z").1.members "lobby" ∧
    (handleRegister soloHub carol "2024-01-01T00:00:00Z").2 =
      [{ Type_ := "user_event", Room := "lobby", Timestamp := "2024-01-01T00:00:00Z",
         Data := .userEvent { Event := "join", User := "carol" } }] ∧
    ∃ h2, route sampleMarshal (handleRegister soloHub carol "2024-01-01T00:00:00Z").1
        (userEventMsg "join" carol "2024-01-01T00:00:00Z") = some h2 ∧
      (h2.send carol).buf = ["user_event|lobby|join|carol"] ∧
      (h2.send alice).buf = ["user_event|lobby|join|carol"] := by
  obtain ⟨_, _, hin, _, hemit, h2, hr, hd⟩ :=
    register_join_notice sampleMarshal soloHub carol "2024-01-01T00:00:00Z"
      "user_event|lobby|join|carol" (by decide) (by decide) (by intro d _; rfl)
  exact ⟨hin, hemit, h2, hr, hd carol (Or.inl rfl) (by decide),
    hd alice (Or.inr (by decide)) (by decide)⟩

/-! ## The mention target of the router and of the inbound pump -/

/-- C10 (amended). For a chat text that starts with `@`, the target name
`route` uses is the text after the `@` up to, and not including, the first
space character (the whole remainder when the text has no space; tab, newline
and carriage return do not end the name), and it is the single mention the
inbound pump records in the envelope it builds from that text. -/
theorem mention_target_parsing (c : Client) (now : String) (clientMsg : ClientMessage)
    (hText : HasPrefix clientMsg.Text "@" = true)
    (hValid : validateMessage clientMsg = .ok ()) :
    (∀ msg d, msg.Type_ = "chat" → msg.Data = .chat d → d.Text = clientMsg.Text →
      routeMention msg = some (mentionName clientMsg.Text, d.From)) ∧
    ∃ env d, readLoopEnvelope c now clientMsg = some env ∧ env.Data = .chat d ∧
      d.Text = clientMsg.Text ∧ d.Mention = [mentionName clientMsg.Text] ∧
      routeMention env = some (mentionName clientMsg.Text, c.name) := by
  have hType : clientMsg.Type_ = "chat" := ((validateMessage_ok_iff_rules clientMsg).mp hValid).1
  constructor
  · intro msg d hT hD hEq
    rw [← hEq]
    exact routeMention_of_mention msg d hT hD (by rw [hEq]; exact hText)
  · refine ⟨{ Type_ := "chat", Room := c.room, Timestamp := now,
              Data := .chat { From := c.name, FromId := c.id, Text := clientMsg.Text,
                              Mention := parseMentions clientMsg.Text } },
      { From := c.name, FromId := c.id, Text := clientMsg.Text,
        Mention := parseMentions clientMsg.Text }, ?_, rfl, rfl, ?_, ?_⟩
    · unfold readLoopEnvelope
      rw [hValid]
      simp [hType]
    · exact parseMentions_of_mention clientMsg.Text hText
    · exact routeMention_of_mention
        { Type_ := "chat", Room := c.room, Timestamp := now,
          Data := .chat { From := c.name, FromId := c.id, Text := clientMsg.Text,
                          Mention := parseMentions clientMsg.Text } }
        { From := c.name, FromId := c.id, Text := clientMsg.Text,
          Mention := parseMentions clientMsg.Text } rfl rfl hText

/-- Witness of C10 (amended): the frame "@bob hi" of alice; the target is
"bob". -/
theorem mention_target_parsing_witness :
    mentionName "@bob hi" = "bob" ∧
    ∃ env d, readLoopEnvelope alice "2024-01-01T00:00:00Z"
        { Type_ := "chat", Text := "@bob hi" } = some env ∧ env.Data = .chat d ∧
      d.Text = "@bob hi" ∧ d.Mention = [mentionName "@bob hi"] ∧
      routeMention env = some (mentionName "@bob hi", "alice") :=
  ⟨by decide, (mention_target_parsing alice "2024-01-01T00:00:00Z"
    { Type_ := "chat", Text := "@bob hi" } (by decide) rfl).2⟩

/-- Counterexample to C10 as stated: the valid text "@bob", tab, "hi". Its
first whitespace-delimited token without the `@` is "bob", but the target name
of `route`, and the mention recorded by the inbound pump, is "bob", tab, "hi":
only a space ends the name. -/
theorem mention_target_tab_not_delimiter :
    validateMessage { Type_ := "chat", Text := "@bob\thi" } = .ok () ∧
    HasPrefix "@bob\thi" "@" = true ∧
    specMentionName "@bob\thi" = "bob" ∧
    routeMention (chatFrom alice "@bob\thi" ["bob\thi"]) = some ("bob\thi", "alice") ∧
    routeMention (chatFrom alice "@bob\thi" ["bob\thi"]) ≠
      some (specMentionName "@bob\thi", "alice") ∧
    parseMentions "@bob\thi" = ["bob\thi"] :=
  ⟨rfl, by decide, by decide, by decide, by decide, by decide⟩

/-! ## The membership invariant -/

theorem membershipInvariant_of_eq (h g : Hub) (hc : g.clients = h.clients)
    (hr : g.rooms = h.rooms) (hinv : MembershipInvariant h) : MembershipInvariant g := by
  unfold MembershipInvariant Hub.members at *
  rw [hc, hr]
  exact hinv

theorem membershipInvariant_newHub : MembershipInvariant NewHub := by
  constructor
  · intro c hc
    cases hc
  · intro r c hc
    cases hc

theorem membershipInvariant_handleRegister (h : Hub) (c : Client) (now : String)
    (hinv : MembershipInvariant h) : MembershipInvariant (handleRegister h c now).1 := by
  obtain ⟨h1, h2⟩ := hinv
  have hcl : ∀ d, d ∈ (handleRegister h c now).1.clients ↔ d = c ∨ d ∈ h.clients := by
    intro d
    show d ∈ setInsert c h.clients ↔ _
    exact mem_setInsert c d h.clients
  have hmem : ∀ r d, d ∈ (handleRegister h c now).1.members r ↔
      (r = c.room ∧ d = c) ∨ d ∈ h.members r := by
    intro r d
    rw [handleRegister_members]
    by_cases hr : r = c.room
    · simp [hr, mem_setInsert]
    · simp [hr]
  constructor
  · intro d hd
    rcases (hcl d).mp hd with hdc | hdh
    · subst hdc
      refine ⟨(hmem d.room d).mpr (Or.inl ⟨rfl, rfl⟩), ?_⟩
      intro r hr
      rcases (hmem r d).mp hr with hx | hx
      · exact hx.1
      · exact (h1 d (h2 r d hx)).2 r hx
    · refine ⟨(hmem d.room d).mpr (Or.inr (h1 d hdh).1), ?_⟩
      intro r hr
      rcases (hmem r d).mp hr with hx | hx
      · rw [hx.1, hx.2]
      · exact (h1 d hdh).2 r hx
  · intro r d hd
    rcases (hmem r d).mp hd with hx | hx
    · exact (hcl d).mpr (Or.inl hx.2)
    · exact (hcl d).mpr (Or.inr (h2 r d hx))

theorem membershipInvariant_removeClient (h : Hub) (c : Client)
    (hinv : MembershipInvariant h) : MembershipInvariant (removeClient h c) := by
  by_cases hc : c ∈ h.clients
  · obtain ⟨h1, h2⟩ := hinv
    have hcl : ∀ d, d ∈ (removeClient h c).clients ↔ d ∈ h.clients ∧ d ≠ c := by
      intro d
      rw [removeClient_clients]
      exact mem_setDelete c d h.clients
    have hmem : ∀ r d, d ∈ (removeClient h c).members r ↔ d ∈ h.members r ∧ d ≠ c := by
      intro r d
      rw [removeClient_members h c hc]
      by_cases hr : r = c.room
      · simp [hr, mem_setDelete]
      · simp only [hr, if_false]
        constructor
        · intro hd
          refine ⟨hd, ?_⟩
          intro hdc
          subst hdc
          exact hr ((h1 d hc).2 r hd)
        · exact fun hd => hd.1
    constructor
    · intro d hd
      obtain ⟨hdh, hne⟩ := (hcl d).mp hd
      refine ⟨(hmem d.room d).mpr ⟨(h1 d hdh).1, hne⟩, ?_⟩
      intro r hr
      exact (h1 d hdh).2 r ((hmem r d).mp hr).1
    · intro r d hd
      obtain ⟨hdm, hne⟩ := (hmem r d).mp hd
      exact (hcl d).mpr ⟨h2 r d hdm, hne⟩
  · rw [removeClient_of_not_mem h c hc]
    exact hinv

theorem membershipInvariant_sendLoop (data : Bytes) :
    ∀ (L : List Client) (h h1 : Hub), MembershipInvariant h →
      sendLoop data h L = some h1 → MembershipInvariant h1 := by
  intro L
  induction L with
  | nil =>
    intro h h1 hinv hrun
    simp only [sendLoop, Option.some.injEq] at hrun
    rw [← hrun]
    exact hinv
  | cons c cs ih =>
    intro h h1 hinv hrun
    unfold sendLoop at hrun
    cases hout : (h.send c).trySend data with
    | sent ch =>
      rw [hout] at hrun
      exact ih { h with send := Function.update h.send c ch } h1
        (membershipInvariant_of_eq h _ rfl rfl hinv) hrun
    | timeout =>
      rw [hout] at hrun
      exact ih (removeClient h c) h1 (membershipInvariant_removeClient h c hinv) hrun
    | panic =>
      rw [hout] at hrun
      cases hrun

theorem membershipInvariant_route (marshal : WebSocketMessage → Option Bytes) (h h1 : Hub)
    (msg : WebSocketMessage) (hinv : MembershipInvariant h)
    (hrun : route marshal h msg = some h1) : MembershipInvariant h1 := by
  unfold route at hrun
  cases hm : marshal msg with
  | none =>
    rw [hm] at hrun
    simp only [Option.some.injEq] at hrun
    rw [← hrun]
    exact hinv
  | some data =>
    rw [hm] at hrun
    simp only at hrun
    cases hp : routeMention msg with
    | none =>
      rw [hp] at hrun
      simp only at hrun
      rw [sendToRoom_eq_sendLoop] at hrun
      exact membershipInvariant_sendLoop data _ h h1 hinv hrun
    | some p =>
      obtain ⟨targetName, sender⟩ := p
      rw [hp] at hrun
      simp only at hrun
      cases h2 : sendToUser h targetName data with
      | none =>
        rw [h2] at hrun
        cases hrun
      | some g =>
        rw [h2] at hrun
        simp only at hrun
        have hg : MembershipInvariant g := membershipInvariant_sendLoop data _ h g hinv h2
        exact membershipInvariant_sendLoop data _ g h1 hg hrun

theorem membershipInvariant_applyAction (marshal : WebSocketMessage → Option Bytes)
    (h h1 : Hub) (a : Action) (hinv : MembershipInvariant h)
    (hrun : applyAction marshal h a = some h1) : MembershipInvariant h1 := by
  cases a with
  | event now e =>
    cases e with
    | register c =>
      simp only [applyAction, runStep, Option.map_some', Option.some.injEq] at hrun
      rw [← hrun]
      exact membershipInvariant_handleRegister h c now hinv
    | unregister c =>
      simp only [applyAction, runStep, Option.map_some', Option.some.injEq] at hrun
      rw [← hrun, handleUnregister_fst]
      exact membershipInvariant_removeClient h c hinv
    | broadcast m =>
      simp only [applyAction, runStep, Option.map_map] at hrun
      cases hr : route marshal h m with
      | none =>
        rw [hr] at hrun
        cases hrun
      | some g =>
        rw [hr] at hrun
        simp only [Option.map_some', Function.comp_apply, Option.some.injEq] at hrun
        rw [← hrun]
        exact membershipInvariant_route marshal h g m hinv hr
  | removeClient c =>
    simp only [applyAction, Option.some.injEq] at hrun
    rw [← hrun]
    exact membershipInvariant_removeClient h c hinv
  | createRoom name =>
    unfold applyAction CreateRoom at hrun
    by_cases hn : name ∈ h.predefinedRooms
    · simp only [hn, if_true, Option.some.injEq] at hrun
      rw [← hrun]
      exact hinv
    · simp only [hn, if_false, Option.some.injEq] at hrun
      rw [← hrun]
      exact membershipInvariant_of_eq h _ rfl rfl hinv
  | setAllowDynamicRooms allow =>
    simp only [applyAction, Option.some.injEq] at hrun
    rw [← hrun]
    exact membershipInvariant_of_eq h _ rfl rfl hinv
  | shutdown =>
    simp only [applyAction, Option.some.injEq] at hrun
    rw [← hrun]
    constructor
    · intro c hc
      cases hc
    · intro r c hc
      cases hc

theorem membershipInvariant_runActions (marshal : WebSocketMessage → Option Bytes) :
    ∀ (actions : List Action) (h h1 : Hub), MembershipInvariant h →
      runActions marshal h actions = some h1 → MembershipInvariant h1 := by
  intro actions
  induction actions with
  | nil =>
    intro h h1 hinv hrun
    simp only [runActions, Option.some.injEq] at hrun
    rw [← hrun]
    exact hinv
  | cons a as ih =>
    intro h h1 hinv hrun
    unfold runActions at hrun
    cases ha : applyAction marshal h a with
    | none =>
      rw [ha] at hrun
      cases hrun
    | some g =>
      rw [ha] at hrun
      exact ih g h1 (membershipInvariant_applyAction marshal h g a hinv ha) hrun

/-! ## Executions with fresh admissions do not panic -/

theorem wellFormed_of_eq (h g : Hub) (hc : g.clients = h.clients) (hr : g.rooms = h.rooms)
    (hs : g.send = h.send) (hwf : WellFormed h) : WellFormed g := by
  obtain ⟨h1, h2, h3, h4⟩ := hwf
  refine ⟨membershipInvariant_of_eq h g hc hr h1, by rw [hc]; exact h2, ?_, ?_⟩
  · intro r
    unfold Hub.members at *
    rw [hr]
    exact h3 r
  · intro c hcm
    rw [hc] at hcm
    rw [hs]
    exact h4 c hcm

theorem wellFormed_handleRegister (h : Hub) (c : Client) (now : String)
    (hwf : WellFormed h) (hopen : (h.send c).closed = false) :
    WellFormed (handleRegister h c now).1 := by
  obtain ⟨h1, h2, h3, h4⟩ := hwf
  refine ⟨membershipInvariant_handleRegister h c now h1, nodup_setInsert c _ h2, ?_, ?_⟩
  · intro r
    rw [handleRegister_members]
    by_cases hr : r = c.room
    · simp only [hr, if_true]
      exact nodup_setInsert c _ (h3 c.room)
    · simp only [hr, if_false]
      exact h3 r
  · intro d hd
    have hd2 : d ∈ setInsert c h.clients := hd
    show (h.send d).closed = false
    rcases (mem_setInsert c d h.clients).mp hd2 with hx | hx
    · rw [hx]
      exact hopen
    · exact h4 d hx

theorem wellFormed_removeClient (h : Hub) (c : Client) (hwf : WellFormed h) :
    WellFormed (removeClient h c) := by
  by_cases hc : c ∈ h.clients
  · obtain ⟨h1, h2, h3, h4⟩ := hwf
    refine ⟨membershipInvariant_removeClient h c h1, ?_, ?_, ?_⟩
    · rw [removeClient_clients]
      exact nodup_setDelete c _ h2
    · intro r
      rw [removeClient_members h c hc]
      by_cases hr : r = c.room
      · simp only [hr, if_true]
        exact nodup_setDelete c _ (h3 c.room)
      · simp only [hr, if_false]
        exact h3 r
    · intro d hd
      rw [removeClient_clients, mem_setDelete] at hd
      rw [removeClient_send]
      simp only [hd.2, false_and, if_false]
      exact h4 d hd.1
  · rw [removeClient_of_not_mem h c hc]
    exact hwf

theorem wellFormed_sendLoop (data : Bytes) (h : Hub) (L : List Client) (hwf : WellFormed h)
    (hL : L.Nodup) (hsub : ∀ c ∈ L, c ∈ h.clients) :
    ∃ h1, sendLoop data h L = some h1 ∧ WellFormed h1 := by
  obtain ⟨h1, h2, h3, h4⟩ := hwf
  obtain ⟨g, hrun, hS, hC, hM, _, _⟩ :=
    sendLoop_spec data L h hL (fun c hc => h4 c (hsub c hc))
  refine ⟨g, hrun, membershipInvariant_sendLoop data L h g h1 hrun, ?_, ?_, ?_⟩
  · rw [hC]
    exact h2.filter _
  · intro r
    rw [hM r]
    exact (h3 r).filter _
  · intro d hd
    rw [hC, List.mem_filter] at hd
    obtain ⟨hdc, hto⟩ := hd
    rw [hS d]
    unfold sendAfter
    by_cases hdL : d ∈ L
    · have hroom : (h.send d).buf.length < (h.send d).cap := by
        simp only [timedOut, hdL, decide_True, Bool.true_and, Bool.not_eq_true',
          decide_eq_false_iff_not, Nat.not_le] at hto
        exact hto
      simp only [hdL, hroom, if_true]
      exact h4 d hdc
    · simp only [hdL, if_false]
      exact h4 d hdc

theorem wellFormed_route (marshal : WebSocketMessage → Option Bytes) (h : Hub)
    (msg : WebSocketMessage) (hwf : WellFormed h) :
    ∃ h1, route marshal h msg = some h1 ∧ WellFormed h1 := by
  unfold route
  cases hm : marshal msg with
  | none => exact ⟨h, rfl, hwf⟩
  | some data =>
    simp only
    cases hp : routeMention msg with
    | none =>
      simp only
      rw [sendToRoom_eq_sendLoop]
      exact wellFormed_sendLoop data h _ hwf (hwf.2.2.1 msg.Room)
        (fun c hc => hwf.1.2 msg.Room c hc)
    | some p =>
      obtain ⟨targetName, sender⟩ := p
      simp only
      obtain ⟨g, hg, hgwf⟩ := wellFormed_sendLoop data h
        (h.clients.filter (fun c => decide (c.name = targetName))) hwf
        (hwf.2.1.filter _) (fun c hc => (List.mem_filter.mp hc).1)
      have hg2 : sendToUser h targetName data = some g := hg
      rw [hg2]
      simp only
      exact wellFormed_sendLoop data g
        (g.clients.filter (fun c => decide (c.name = sender))) hgwf
        (hgwf.2.1.filter _) (fun c hc => (List.mem_filter.mp hc).1)

theorem wellFormed_applyAction (marshal : WebSocketMessage → Option Bytes) (h : Hub)
    (a : Action) (hwf : WellFormed h)
    (hfresh : ∀ now c, a = .event now (.register c) → (h.send c).closed = false) :
    ∃ h1, applyAction marshal h a = some h1 ∧ WellFormed h1 := by
  cases a with
  | event now e =>
    cases e with
    | register c =>
      exact ⟨_, rfl, wellFormed_handleRegister h c now hwf (hfresh now c rfl)⟩
    | unregister c =>
      refine ⟨(handleUnregister h c now).1, rfl, ?_⟩
      rw [handleUnregister_fst]
      exact wellFormed_removeClient h c hwf
    | broadcast m =>
      obtain ⟨g, hg, hgwf⟩ := wellFormed_route marshal h m hwf
      refine ⟨g, ?_, hgwf⟩
      simp only [applyAction, runStep, hg, Option.map_some']
  | removeClient c => exact ⟨_, rfl, wellFormed_removeClient h c hwf⟩
  | createRoom name =>
    unfold applyAction CreateRoom
    by_cases hn : name ∈ h.predefinedRooms
    · simp only [hn, if_true]
      exact ⟨h, rfl, hwf⟩
    · simp only [hn, if_false]
      exact ⟨_, rfl, wellFormed_of_eq h _ rfl rfl rfl hwf⟩
  | setAllowDynamicRooms allow =>
    exact ⟨_, rfl, wellFormed_of_eq h _ rfl rfl rfl hwf⟩
  | shutdown =>
    refine ⟨shutdown h, rfl, ⟨?_, ?_⟩, List.nodup_nil, ?_, ?_⟩
    · intro c hc
      cases hc
    · intro r c hc
      cases hc
    · intro r
      exact List.nodup_nil
    · intro c hc
      cases hc

/-- An execution whose admissions are of sessions with an open channel never
panics: it reaches a state, and that state is well formed. -/
theorem runActions_of_freshAdmissions (marshal : WebSocketMessage → Option Bytes) :
    ∀ (actions : List Action) (h : Hub), WellFormed h → FreshAdmissions marshal h actions →
      ∃ h1, runActions marshal h actions = some h1 ∧ WellFormed h1 := by
  intro actions
  induction actions with
  | nil =>
    intro h hwf _
    exact ⟨h, rfl, hwf⟩
  | cons a as ih =>
    intro h hwf hfresh
    obtain ⟨hnow, hnext⟩ := hfresh
    obtain ⟨g, hg, hgwf⟩ := wellFormed_applyAction marshal h a hwf hnow
    obtain ⟨h1, hrun, hwf1⟩ := ih g hgwf (hnext g hg)
    refine ⟨h1, ?_, hwf1⟩
    unfold runActions
    rw [hg]
    exact hrun

theorem wellFormed_newHub : WellFormed NewHub := by
  refine ⟨membershipInvariant_newHub, List.nodup_nil, ?_, ?_⟩
  · intro r
    exact List.nodup_nil
  · intro c hc
    cases hc

/-- C11. Membership invariant: in every hub state reached from `NewHub` by a
sequence of admissions, unregistrations, forced evictions (`removeClient`),
routing passes, `CreateRoom`, `SetAllowDynamicRooms` and `shutdown`, every
session of the global set is in the member set of its own room, the room it
was admitted to, and of no other room, and every session of a member set is in
the global set. -/
theorem membership_invariant_reachable (marshal : WebSocketMessage → Option Bytes)
    (actions : List Action) (h : Hub)
    (hrun : runActions marshal NewHub actions = some h) :
    (∀ c ∈ h.clients, c ∈ h.members c.room ∧ ∀ r, c ∈ h.members r → r = c.room) ∧
    (∀ r c, c ∈ h.members r → c ∈ h.clients) :=
  membershipInvariant_runActions marshal actions NewHub h membershipInvariant_newHub hrun

/-- Witness of C11: the execution `sampleActions` ends in the state where
alice and carol are admitted and are the members of the lobby. -/
theorem membership_invariant_reachable_witness :
    ∃ h, runActions sampleMarshal NewHub sampleActions = some h ∧
      h.clients = [alice, carol] ∧ h.rooms = [("lobby", [alice, carol])] ∧
      (∀ c ∈ h.clients, c ∈ h.members c.room ∧ ∀ r, c ∈ h.members r → r = c.room) ∧
      (∀ r c, c ∈ h.members r → c ∈ h.clients) := by
  have heval : (runActions sampleMarshal NewHub sampleActions).map
      (fun h => (h.clients, h.rooms)) = some ([alice, carol], [("lobby", [alice, carol])]) := by
    decide
  cases hrun : runActions sampleMarshal NewHub sampleActions with
  | none =>
    rw [hrun] at heval
    cases heval
  | some h =>
    rw [hrun] at heval
    simp only [Option.map_some', Option.some.injEq, Prod.mk.injEq] at heval
    exact ⟨h, rfl, heval.1, heval.2,
      membership_invariant_reachable sampleMarshal sampleActions h hrun⟩

end Bushitsu
